import Mathlib

/-!
Shallow embedding of the yalla N-body solver core (src/include/solvers.cuh)
over exact rational arithmetic.  Device float arithmetic is modelled by ℚ;
sums that the GPU performs in arbitrary order are modelled by `Finset.sum`,
which is order independent, matching the spec's "up to reordering of
floating-point summation".  The source compares the Euclidean norm
`norm3df(r.x, r.y, r.z) < 1`; the embedding uses the equivalent squared
comparison `normSq r < 1` and hands the interaction callback the squared
distance (the norm is a monotone bijection on nonnegative reals, so the two
parametrisations of the callback are interchangeable).
-/

namespace Yalla

/-- Modelled from the spec: the point type `Pt` (dtypes.cuh is not under
src/).  A fixed-shape record of floating-point fields: three positional
components x, y, z plus auxiliary fields integrated by the same scheme;
one auxiliary field `w` is carried to represent the general case.
Arithmetic is componentwise over all fields. -/
@[ext] structure Pt where
  x : ℚ
  y : ℚ
  z : ℚ
  w : ℚ
deriving DecidableEq

/-- Modelled from the spec: the CUDA `float3` used for velocities. -/
@[ext] structure V3 where
  x : ℚ
  y : ℚ
  z : ℚ
deriving DecidableEq

instance : Zero Pt := ⟨⟨0, 0, 0, 0⟩⟩
instance : Add Pt := ⟨fun a b => ⟨a.x + b.x, a.y + b.y, a.z + b.z, a.w + b.w⟩⟩
instance : Sub Pt := ⟨fun a b => ⟨a.x - b.x, a.y - b.y, a.z - b.z, a.w - b.w⟩⟩
instance : Neg Pt := ⟨fun a => ⟨-a.x, -a.y, -a.z, -a.w⟩⟩

@[simp] lemma Pt.zero_x : (0 : Pt).x = 0 := rfl
@[simp] lemma Pt.zero_y : (0 : Pt).y = 0 := rfl
@[simp] lemma Pt.zero_z : (0 : Pt).z = 0 := rfl
@[simp] lemma Pt.zero_w : (0 : Pt).w = 0 := rfl
@[simp] lemma Pt.add_x (a b : Pt) : (a + b).x = a.x + b.x := rfl
@[simp] lemma Pt.add_y (a b : Pt) : (a + b).y = a.y + b.y := rfl
@[simp] lemma Pt.add_z (a b : Pt) : (a + b).z = a.z + b.z := rfl
@[simp] lemma Pt.add_w (a b : Pt) : (a + b).w = a.w + b.w := rfl
@[simp] lemma Pt.sub_x (a b : Pt) : (a - b).x = a.x - b.x := rfl
@[simp] lemma Pt.sub_y (a b : Pt) : (a - b).y = a.y - b.y := rfl
@[simp] lemma Pt.sub_z (a b : Pt) : (a - b).z = a.z - b.z := rfl
@[simp] lemma Pt.sub_w (a b : Pt) : (a - b).w = a.w - b.w := rfl

instance : AddCommMonoid Pt where
  add_assoc a b c := by ext <;> simp <;> ring
  zero_add a := by ext <;> simp
  add_zero a := by ext <;> simp
  add_comm a b := by ext <;> simp <;> ring
  nsmul := nsmulRec

instance : Zero V3 := ⟨⟨0, 0, 0⟩⟩
instance : Add V3 := ⟨fun a b => ⟨a.x + b.x, a.y + b.y, a.z + b.z⟩⟩

@[simp] lemma V3.v3_zero_x : (0 : V3).x = 0 := rfl
@[simp] lemma V3.v3_zero_y : (0 : V3).y = 0 := rfl
@[simp] lemma V3.v3_zero_z : (0 : V3).z = 0 := rfl
@[simp] lemma V3.v3_add_x (a b : V3) : (a + b).x = a.x + b.x := rfl
@[simp] lemma V3.v3_add_y (a b : V3) : (a + b).y = a.y + b.y := rfl
@[simp] lemma V3.v3_add_z (a b : V3) : (a + b).z = a.z + b.z := rfl

instance : AddCommMonoid V3 where
  add_assoc a b c := by ext <;> simp <;> ring
  zero_add a := by ext <;> simp
  add_zero a := by ext <;> simp
  add_comm a b := by ext <;> simp <;> ring
  nsmul := nsmulRec

/-- Modelled from the spec: componentwise scaling `p * a` (dtypes.cuh). -/
def Pt.scale (p : Pt) (a : ℚ) : Pt := ⟨p.x * a, p.y * a, p.z * a, p.w * a⟩

/-- Modelled from the spec: componentwise division `p / a` (dtypes.cuh),
used by the mean reduction `thrust::reduce(...) / n`. -/
def Pt.qdiv (p : Pt) (a : ℚ) : Pt := ⟨p.x / a, p.y / a, p.z / a, p.w / a⟩

@[simp] lemma Pt.scale_x (p : Pt) (a : ℚ) : (p.scale a).x = p.x * a := rfl
@[simp] lemma Pt.scale_y (p : Pt) (a : ℚ) : (p.scale a).y = p.y * a := rfl
@[simp] lemma Pt.scale_z (p : Pt) (a : ℚ) : (p.scale a).z = p.z * a := rfl
@[simp] lemma Pt.scale_w (p : Pt) (a : ℚ) : (p.scale a).w = p.w * a := rfl
@[simp] lemma Pt.qdiv_x (p : Pt) (a : ℚ) : (p.qdiv a).x = p.x / a := rfl
@[simp] lemma Pt.qdiv_y (p : Pt) (a : ℚ) : (p.qdiv a).y = p.y / a := rfl
@[simp] lemma Pt.qdiv_z (p : Pt) (a : ℚ) : (p.qdiv a).z = p.z / a := rfl
@[simp] lemma Pt.qdiv_w (p : Pt) (a : ℚ) : (p.qdiv a).w = p.w / a := rfl

/-- Squared Euclidean norm of the three spatial components of a difference
`r = Xi - Xj`; the source computes `norm3df(r.x, r.y, r.z)`, whose
comparisons against 1 are embedded via the square. -/
def normSq (r : Pt) : ℚ := r.x ^ 2 + r.y ^ 2 + r.z ^ 2

/-- `Pairwise_interaction<Pt>`: `Pt (Pt Xi, Pt r, float dist, int i, int j)`.
The third argument is the squared distance (see file header). -/
def PW : Type := Pt → Pt → ℚ → ℕ → ℕ → Pt

/-- `Generic_forces<Pt>`: reads the state array and rewrites the derivative
array (`std::function<void (const Pt* d_X, Pt* d_dX)>`). -/
def GF : Type := (ℕ → Pt) → (ℕ → Pt) → (ℕ → Pt)

/-- `no_gen_forces`. -/
def no_gen_forces : GF := fun _ dX => dX

/-- `const auto TILE_SIZE = 32`. -/
def TILE_SIZE : ℕ := 32

/-- Number of iterations of `for (tile_start = 0; tile_start < n_cells;
tile_start += TILE_SIZE)`: the tile at index `t` starts at `TILE_SIZE*t`. -/
def numTiles (n : ℕ) : ℕ := (n + TILE_SIZE - 1) / TILE_SIZE

/-- `compute_tiles`, derivative output: thread `i < n` accumulates
`Fi += pw_int(d_X[i], r, dist, i, j)` for `j = tile_start + k` over all
tiles and `k < TILE_SIZE`, guarded by `(i < n_cells) and (j < n_cells)`,
then stores `d_dX[i] = Fi`.  The shared-memory cache `shX[k] = d_X[j]` is
inlined.  Entries `i >= n` keep the previous buffer contents `dX0`. -/
def compute_tiles_dX (pw : PW) (n : ℕ) (X : ℕ → Pt) (dX0 : ℕ → Pt) : ℕ → Pt :=
  fun i =>
    if i < n then
      ∑ t ∈ Finset.range (numTiles n), ∑ k ∈ Finset.range TILE_SIZE,
        if TILE_SIZE * t + k < n then
          pw (X i) (X i - X (TILE_SIZE * t + k))
            (normSq (X i - X (TILE_SIZE * t + k))) i (TILE_SIZE * t + k)
        else 0
    else dX0 i

/-- `compute_tiles`, neighbour count: inside the same loops, thread `i < n`
runs `if (dist < 1) d_nNBs[i] += 1` on top of the incoming buffer. -/
def compute_tiles_nNBs (n : ℕ) (X : ℕ → Pt) (nNBs0 : ℕ → ℤ) : ℕ → ℤ :=
  fun i =>
    if i < n then
      nNBs0 i + ∑ t ∈ Finset.range (numTiles n), ∑ k ∈ Finset.range TILE_SIZE,
        if TILE_SIZE * t + k < n ∧ normSq (X i - X (TILE_SIZE * t + k)) < 1 then 1 else 0
    else nNBs0 i

/-- `compute_tiles`, neighbour velocity sum: inside the same loops, thread
`i < n` runs `if (dist < 1) d_sum_v[i] += d_old_v[j]`. -/
def compute_tiles_sum_v (n : ℕ) (X : ℕ → Pt) (old_v : ℕ → V3) (sum_v0 : ℕ → V3) : ℕ → V3 :=
  fun i =>
    if i < n then
      sum_v0 i + ∑ t ∈ Finset.range (numTiles n), ∑ k ∈ Finset.range TILE_SIZE,
        if TILE_SIZE * t + k < n ∧ normSq (X i - X (TILE_SIZE * t + k)) < 1 then
          old_v (TILE_SIZE * t + k)
        else 0
    else sum_v0 i

/-- The neighbourhood of entity `i`: live entities strictly closer than the
unit radius ("Bolls closer than 1 are neighbours"), itself included. -/
def nbhd (n : ℕ) (X : ℕ → Pt) (i : ℕ) : Finset ℕ :=
  (Finset.range n).filter (fun j => normSq (X i - X j) < 1)

section TileSum

variable {M : Type} [AddCommMonoid M]

lemma sum_tiles_blocks (T : ℕ) (g : ℕ → M) :
    ∑ t ∈ Finset.range T, ∑ k ∈ Finset.range TILE_SIZE, g (TILE_SIZE * t + k) =
      ∑ j ∈ Finset.range (TILE_SIZE * T), g j := by
  induction T with
  | zero => simp
  | succ T ih =>
      rw [Finset.sum_range_succ, ih, Nat.mul_succ, Finset.sum_range_add]

lemma tile_sum (n : ℕ) (f : ℕ → M) :
    (∑ t ∈ Finset.range (numTiles n), ∑ k ∈ Finset.range TILE_SIZE,
        if TILE_SIZE * t + k < n then f (TILE_SIZE * t + k) else 0) =
      ∑ j ∈ Finset.range n, f j := by
  refine (sum_tiles_blocks (numTiles n) (fun j => if j < n then f j else 0)).trans ?_
  have hn : n ≤ TILE_SIZE * numTiles n := by
    unfold numTiles TILE_SIZE
    omega
  rw [← Finset.sum_subset (Finset.range_subset.mpr hn)
      (fun j _ hj => if_neg (fun h => hj (Finset.mem_range.mpr h)))]
  exact Finset.sum_congr rfl (fun j hj => if_pos (Finset.mem_range.mp hj))

end TileSum

/-- The tiled loops enumerate each `j ∈ [0, n)` exactly once. -/
lemma tiles_dX_char (pw : PW) (n : ℕ) (X : ℕ → Pt) (dX0 : ℕ → Pt) {i : ℕ} (hi : i < n) :
    compute_tiles_dX pw n X dX0 i =
      ∑ j ∈ Finset.range n, pw (X i) (X i - X j) (normSq (X i - X j)) i j := by
  unfold compute_tiles_dX
  rw [if_pos hi]
  exact tile_sum n (fun j => pw (X i) (X i - X j) (normSq (X i - X j)) i j)

lemma tiles_nNBs_char (n : ℕ) (X : ℕ → Pt) (nNBs0 : ℕ → ℤ) {i : ℕ} (hi : i < n) :
    compute_tiles_nNBs n X nNBs0 i = nNBs0 i + ((nbhd n X i).card : ℤ) := by
  unfold compute_tiles_nNBs
  rw [if_pos hi]
  congr 1
  have h : ∀ t ∈ Finset.range (numTiles n), ∀ k ∈ Finset.range TILE_SIZE,
      (if TILE_SIZE * t + k < n ∧ normSq (X i - X (TILE_SIZE * t + k)) < 1
        then (1 : ℤ) else 0) =
      (if TILE_SIZE * t + k < n then
        (if normSq (X i - X (TILE_SIZE * t + k)) < 1 then (1 : ℤ) else 0) else 0) := by
    intro t _ k _
    by_cases h1 : TILE_SIZE * t + k < n <;>
      by_cases h2 : normSq (X i - X (TILE_SIZE * t + k)) < 1 <;>
      simp [h1, h2]
  rw [Finset.sum_congr rfl (fun t ht => Finset.sum_congr rfl (h t ht)),
    tile_sum n (fun j => if normSq (X i - X j) < 1 then (1 : ℤ) else 0)]
  rw [Finset.sum_boole]
  simp [nbhd]

lemma tiles_sum_v_char (n : ℕ) (X : ℕ → Pt) (old_v : ℕ → V3) (sum_v0 : ℕ → V3)
    {i : ℕ} (hi : i < n) :
    compute_tiles_sum_v n X old_v sum_v0 i = sum_v0 i + ∑ j ∈ nbhd n X i, old_v j := by
  unfold compute_tiles_sum_v
  rw [if_pos hi]
  congr 1
  have h : ∀ t ∈ Finset.range (numTiles n), ∀ k ∈ Finset.range TILE_SIZE,
      (if TILE_SIZE * t + k < n ∧ normSq (X i - X (TILE_SIZE * t + k)) < 1
        then old_v (TILE_SIZE * t + k) else 0) =
      (if TILE_SIZE * t + k < n then
        (if normSq (X i - X (TILE_SIZE * t + k)) < 1
          then old_v (TILE_SIZE * t + k) else 0) else 0) := by
    intro t _ k _
    by_cases h1 : TILE_SIZE * t + k < n <;>
      by_cases h2 : normSq (X i - X (TILE_SIZE * t + k)) < 1 <;>
      simp [h1, h2]
  rw [Finset.sum_congr rfl (fun t ht => Finset.sum_congr rfl (h t ht)),
    tile_sum n (fun j => if normSq (X i - X j) < 1 then old_v j else 0)]
  unfold nbhd
  rw [Finset.sum_filter]

/-- `add_rhs`: for every live entity `d_dX[i] += d_sum_v[i]/d_nNBs[i]`
componentwise on x, y, z.  The division is unguarded in the source; a zero
divisor would produce an IEEE non-finite value (NaN for the 0/0 case),
which the solver's own assertions treat as fatal corruption, so the
embedding makes the kernel fallible: `none` when any live divisor is 0. -/
def add_rhs (n : ℕ) (sum_v : ℕ → V3) (nNBs : ℕ → ℤ) (dX : ℕ → Pt) : Option (ℕ → Pt) :=
  if ∀ i ∈ Finset.range n, nNBs i ≠ 0 then
    some (fun i =>
      if i < n then
        ⟨(dX i).x + (sum_v i).x / (nNBs i : ℚ), (dX i).y + (sum_v i).y / (nNBs i : ℚ),
          (dX i).z + (sum_v i).z / (nNBs i : ℚ), (dX i).w⟩
      else dX i)
  else none

/-- `thrust::reduce(thrust::device, d_dX, d_dX + n, Pt {0})/n`. -/
def meanPt (n : ℕ) (dX : ℕ → Pt) : Pt := (∑ i ∈ Finset.range n, dX i).qdiv (n : ℚ)

/-- The drift-removal subtraction shared verbatim by `euler_step` and
`heun_step`: `d_dX[i].x -= mean_dX.x` and likewise for y and z only; the
remaining fields of `Pt` are left untouched. -/
def drift_sub (n : ℕ) (mean_dX : Pt) (dX : ℕ → Pt) : ℕ → Pt :=
  fun i =>
    if i < n then
      ⟨(dX i).x - mean_dX.x, (dX i).y - mean_dX.y, (dX i).z - mean_dX.z, (dX i).w⟩
    else dX i

/-- `euler_step`: subtract `mean_dX` from the positional components of
`d_dX[i]`, then `d_X[i] = d_X0[i] + d_dX[i]*dt`.  Returns the pair
(updated `d_dX`, written `d_X`); entries `i >= n_cells` are not written
(the predicted buffer's contents beyond `n` are unspecified in the device
memory; the model leaves `X0` there, which no in-range computation reads). -/
def euler_step (n : ℕ) (dt : ℚ) (X0 : ℕ → Pt) (mean_dX : Pt) (dX : ℕ → Pt) :
    (ℕ → Pt) × (ℕ → Pt) :=
  (drift_sub n mean_dX dX,
   fun i => if i < n then X0 i + (drift_sub n mean_dX dX i).scale dt else X0 i)

/-- `heun_step`: subtract `mean_dX1` from the positional components of
`d_dX1[i]`, then `d_X[i] += (d_dX[i] + d_dX1[i])*0.5*dt` and
`d_old_v[i] = positional part of (d_dX[i] + d_dX1[i])*0.5`.  Returns
(updated `d_dX1`, updated `d_X`, updated `d_old_v`). -/
def heun_step (n : ℕ) (dt : ℚ) (dX : ℕ → Pt) (mean_dX1 : Pt) (dX1 : ℕ → Pt)
    (X : ℕ → Pt) (old_v : ℕ → V3) : (ℕ → Pt) × (ℕ → Pt) × (ℕ → V3) :=
  (drift_sub n mean_dX1 dX1,
   fun i =>
     if i < n then
       X i + ((dX i + drift_sub n mean_dX1 dX1 i).scale (1 / 2)).scale dt
     else X i,
   fun i =>
     if i < n then
       ⟨((dX i + drift_sub n mean_dX1 dX1 i).scale (1 / 2)).x,
        ((dX i + drift_sub n mean_dX1 dX1 i).scale (1 / 2)).y,
        ((dX i + drift_sub n mean_dX1 dX1 i).scale (1 / 2)).z⟩
     else old_v i)

/-- The state owned by `N2n_solver` that survives between steps: the live
count, the positions `d_X` and the previous velocities `d_old_v`. -/
structure N2nState where
  n : ℕ
  X : ℕ → Pt
  old_v : ℕ → V3

/-- One integrator stage before drift removal, as run twice by
`N2n_solver::take_step`: zero-fill the live prefix of `d_nNBs` and
`d_sum_v`, run `compute_tiles`, apply the generic forces, then `add_rhs`. -/
def stage_dX (pw : PW) (gf : GF) (n : ℕ) (X : ℕ → Pt) (old_v : ℕ → V3) :
    Option (ℕ → Pt) :=
  add_rhs n (compute_tiles_sum_v n X old_v (fun _ => 0))
    (compute_tiles_nNBs n X (fun _ => 0))
    (gf X (compute_tiles_dX pw n X (fun _ => 0)))

/-- The drift-corrected predictor derivative: what `euler_step` leaves in
`d_dX` right before writing the predicted positions. -/
def predict_corrected (pw : PW) (gf : GF) (s : N2nState) : Option (ℕ → Pt) :=
  (stage_dX pw gf s.n s.X s.old_v).map fun d0 => drift_sub s.n (meanPt s.n d0) d0

/-- The predicted positions `d_X1` written by `euler_step`. -/
def predict_X1 (pw : PW) (gf : GF) (dt : ℚ) (s : N2nState) : Option (ℕ → Pt) :=
  (stage_dX pw gf s.n s.X s.old_v).map fun d0 =>
    (euler_step s.n dt s.X (meanPt s.n d0) d0).2

/-- The drift-corrected corrector derivative: what `heun_step` leaves in
`d_dX1` right before the trapezoidal position update. -/
def correct_corrected (pw : PW) (gf : GF) (dt : ℚ) (s : N2nState) : Option (ℕ → Pt) :=
  (predict_X1 pw gf dt s).bind fun X1 =>
    (stage_dX pw gf s.n X1 s.old_v).map fun d1 => drift_sub s.n (meanPt s.n d1) d1

/-- `N2n_solver::take_step` with the tiled evaluator: predictor stage
(`compute_tiles`, generic forces, `add_rhs`, mean reduction, `euler_step`
into `d_X1`), then corrector stage on the predicted state and `heun_step`
updating `d_X` and `d_old_v` in place. -/
def take_step (pw : PW) (gf : GF) (dt : ℚ) (s : N2nState) : Option N2nState :=
  (stage_dX pw gf s.n s.X s.old_v).bind fun d0 =>
    let e := euler_step s.n dt s.X (meanPt s.n d0) d0
    (stage_dX pw gf s.n e.2 s.old_v).bind fun d1 =>
      let h := heun_step s.n dt e.1 (meanPt s.n d1) d1 s.X s.old_v
      some ⟨s.n, h.2.1, h.2.2⟩

/-- Projection of the x field as an additive homomorphism, to push sums
through. -/
def Pt.xHom : Pt →+ ℚ := ⟨⟨Pt.x, rfl⟩, fun _ _ => rfl⟩

/-- Projection of the y field as an additive homomorphism. -/
def Pt.yHom : Pt →+ ℚ := ⟨⟨Pt.y, rfl⟩, fun _ _ => rfl⟩

/-- Projection of the z field as an additive homomorphism. -/
def Pt.zHom : Pt →+ ℚ := ⟨⟨Pt.z, rfl⟩, fun _ _ => rfl⟩

/-- Projection of the w field as an additive homomorphism. -/
def Pt.wHom : Pt →+ ℚ := ⟨⟨Pt.w, rfl⟩, fun _ _ => rfl⟩

lemma sum_x (s : Finset ℕ) (f : ℕ → Pt) : (∑ i ∈ s, f i).x = ∑ i ∈ s, (f i).x :=
  map_sum Pt.xHom f s

lemma sum_y (s : Finset ℕ) (f : ℕ → Pt) : (∑ i ∈ s, f i).y = ∑ i ∈ s, (f i).y :=
  map_sum Pt.yHom f s

lemma sum_z (s : Finset ℕ) (f : ℕ → Pt) : (∑ i ∈ s, f i).z = ∑ i ∈ s, (f i).z :=
  map_sum Pt.zHom f s

lemma sum_w (s : Finset ℕ) (f : ℕ → Pt) : (∑ i ∈ s, f i).w = ∑ i ∈ s, (f i).w :=
  map_sum Pt.wHom f s

/-- Exact-arithmetic core of drift removal: subtracting the mean makes the
per-axis sum vanish. -/
lemma drift_sub_sum_x (n : ℕ) (hn : 1 ≤ n) (d : ℕ → Pt) :
    ∑ i ∈ Finset.range n, (drift_sub n (meanPt n d) d i).x = 0 := by
  have hcast : ((n : ℚ)) ≠ 0 := Nat.cast_ne_zero.mpr (by omega)
  have h : ∀ i ∈ Finset.range n,
      (drift_sub n (meanPt n d) d i).x = (d i).x - (meanPt n d).x := by
    intro i hi
    unfold drift_sub
    rw [if_pos (Finset.mem_range.mp hi)]
  rw [Finset.sum_congr rfl h, Finset.sum_sub_distrib, Finset.sum_const,
    Finset.card_range]
  unfold meanPt
  rw [Pt.qdiv_x, sum_x]
  field_simp

lemma drift_sub_sum_y (n : ℕ) (hn : 1 ≤ n) (d : ℕ → Pt) :
    ∑ i ∈ Finset.range n, (drift_sub n (meanPt n d) d i).y = 0 := by
  have hcast : ((n : ℚ)) ≠ 0 := Nat.cast_ne_zero.mpr (by omega)
  have h : ∀ i ∈ Finset.range n,
      (drift_sub n (meanPt n d) d i).y = (d i).y - (meanPt n d).y := by
    intro i hi
    unfold drift_sub
    rw [if_pos (Finset.mem_range.mp hi)]
  rw [Finset.sum_congr rfl h, Finset.sum_sub_distrib, Finset.sum_const,
    Finset.card_range]
  unfold meanPt
  rw [Pt.qdiv_y, sum_y]
  field_simp

lemma drift_sub_sum_z (n : ℕ) (hn : 1 ≤ n) (d : ℕ → Pt) :
    ∑ i ∈ Finset.range n, (drift_sub n (meanPt n d) d i).z = 0 := by
  have hcast : ((n : ℚ)) ≠ 0 := Nat.cast_ne_zero.mpr (by omega)
  have h : ∀ i ∈ Finset.range n,
      (drift_sub n (meanPt n d) d i).z = (d i).z - (meanPt n d).z := by
    intro i hi
    unfold drift_sub
    rw [if_pos (Finset.mem_range.mp hi)]
  rw [Finset.sum_congr rfl h, Finset.sum_sub_distrib, Finset.sum_const,
    Finset.card_range]
  unfold meanPt
  rw [Pt.qdiv_z, sum_z]
  field_simp

/-- The non-positional field is untouched by drift removal. -/
lemma drift_sub_w (n : ℕ) (mean_dX : Pt) (dX : ℕ → Pt) (i : ℕ) :
    (drift_sub n mean_dX dX i).w = (dX i).w := by
  unfold drift_sub
  by_cases hi : i < n <;> simp [hi]

/-- `const auto LATTICE_SIZE = 50`. -/
def LATTICE_SIZE : ℤ := 50

/-- `const auto N_CUBES = LATTICE_SIZE*LATTICE_SIZE*LATTICE_SIZE`. -/
def N_CUBES : ℤ := LATTICE_SIZE * LATTICE_SIZE * LATTICE_SIZE

/-- `compute_cube_ids`: the linear bucket id
`floor(x/cube_size) + LATTICE_SIZE/2 + (floor(y/cube_size) +
LATTICE_SIZE/2)*LATTICE_SIZE + (floor(z/cube_size) +
LATTICE_SIZE/2)*LATTICE_SIZE*LATTICE_SIZE`. -/
def cube_id (cube_size : ℚ) (p : Pt) : ℤ :=
  (⌊p.x / cube_size⌋ + LATTICE_SIZE / 2) +
    (⌊p.y / cube_size⌋ + LATTICE_SIZE / 2) * LATTICE_SIZE +
    (⌊p.z / cube_size⌋ + LATTICE_SIZE / 2) * (LATTICE_SIZE * LATTICE_SIZE)

/-- `d_moore_nhood` as filled by the `Lattice_solver` constructor: start
from `{-1, 0, 1}`, append the same three entries shifted by `-LATTICE_SIZE`
and `+LATTICE_SIZE`, then append the resulting nine shifted by the two
`LATTICE_SIZE*LATTICE_SIZE` offsets. -/
def moore_nhood : List ℤ :=
  let h0 : List ℤ := [-1, 0, 1]
  let h1 := h0 ++ h0.map (· - LATTICE_SIZE) ++ h0.map (· + LATTICE_SIZE)
  h1 ++ h1.map (· - LATTICE_SIZE * LATTICE_SIZE) ++ h1.map (· + LATTICE_SIZE * LATTICE_SIZE)

/-- `d_moore_nhood[j]`. -/
def moore (j : ℕ) : ℤ := moore_nhood.getD j 0

/-- The 27 bucket ids probed for an entity whose own bucket is `c`. -/
def mooreSet (c : ℤ) : Finset ℤ := (Finset.range 27).image (fun j => c + moore j)

/-- Key order used to model `thrust::sort_by_key` on the (cube id, cell id)
pairs: compare the cube ids; ties are broken arbitrarily (the spec makes
the inside-bucket order unobservable). -/
def keyOrd (a b : ℤ × ℕ) : Prop := a.1 ≤ b.1

instance : DecidableRel keyOrd := fun a b => inferInstanceAs (Decidable (a.1 ≤ b.1))

instance : IsTotal (ℤ × ℕ) keyOrd := ⟨fun a b => Int.le_total a.1 b.1⟩

instance : IsTrans (ℤ × ℕ) keyOrd := ⟨fun _ _ _ h1 h2 => le_trans h1 h2⟩

/-- The parallel arrays written by `compute_cube_ids`:
`d_cube_id[i] = id of d_X[i]`, `d_cell_id[i] = i`, paired for sorting. -/
def lattice_pairs (cube_size : ℚ) (n : ℕ) (X : ℕ → Pt) : List (ℤ × ℕ) :=
  (List.range n).map (fun i => (cube_id cube_size (X i), i))

/-- `thrust::sort_by_key(d_cube_id, d_cube_id + n, d_cell_id)`, modelled by
insertion sort on the pairs (one admissible outcome of the unstable sort;
all theorems below depend only on key order). -/
def lattice_sorted (cube_size : ℚ) (n : ℕ) (X : ℕ → Pt) : List (ℤ × ℕ) :=
  List.insertionSort keyOrd (lattice_pairs cube_size n X)

/-- The `Lattice` arrays after `build_lattice`: sorted cube ids, the
matching permuted cell ids, and per-bucket start/end. -/
structure LatticeArrays where
  cubeOf : ℕ → ℤ
  cellOf : ℕ → ℕ
  cstart : ℤ → ℤ
  cend : ℤ → ℤ

/-- `auto prev = i > 0 ? d_cube_id[i - 1] : -1`. -/
def prevId (S : ℕ → ℤ) (i : ℕ) : ℤ := if 0 < i then S (i - 1) else -1

/-- `auto next = i < n_cells - 1 ? d_cube_id[i + 1] : d_cube_id[i] + 1`. -/
def nextId (S : ℕ → ℤ) (n i : ℕ) : ℤ := if i < n - 1 then S (i + 1) else S i + 1

/-- One thread of `compute_cube_start_and_end`:
`if (cube != prev) d_cube_start[cube] = i; if (cube != next)
d_cube_end[cube] = i`. -/
def cse_upd (S : ℕ → ℤ) (n i : ℕ) (se : (ℤ → ℤ) × (ℤ → ℤ)) : (ℤ → ℤ) × (ℤ → ℤ) :=
  (if S i ≠ prevId S i then Function.update se.1 (S i) (i : ℤ) else se.1,
   if S i ≠ nextId S n i then Function.update se.2 (S i) (i : ℤ) else se.2)

/-- The threads `i < m` of `compute_cube_start_and_end` on top of the
`thrust::fill` initialisation (start `-1`, end `-2`).  The kernel's threads
write disjoint cells whenever the ids are sorted, so the sequential fold is
a faithful model of the parallel launch with `m = n`. -/
def cse_iter (S : ℕ → ℤ) (n m : ℕ) : (ℤ → ℤ) × (ℤ → ℤ) :=
  (List.range m).foldl (fun se i => cse_upd S n i se) (fun _ => -1, fun _ => -2)

/-- `Lattice_solver::build_lattice`: compute cube ids, fill the sentinel
ranges, sort by key, then derive the per-bucket start/end. -/
def build_lattice (cube_size : ℚ) (n : ℕ) (X : ℕ → Pt) : LatticeArrays :=
  let sorted := lattice_sorted cube_size n X
  let S := fun p => (sorted.getD p (0, 0)).1
  let se := cse_iter S n n
  ⟨S, fun p => (sorted.getD p (0, 0)).2, se.1, se.2⟩

/-- `compute_lattice_pwints`, force accumulator of the thread at sorted
position `p`: iterate the 27 neighbourhood buckets, and inside each bucket
the positions `k = d_cube_start[cube] .. d_cube_end[cube]`; all of
`d_nNBs`, `d_sum_v` and `F` only accumulate under `dist < CUBE_SIZE`. -/
def lat_F (pw : PW) (X : ℕ → Pt) (L : LatticeArrays) (p : ℕ) : Pt :=
  ∑ j ∈ Finset.range 27,
    ∑ k ∈ Finset.Icc (L.cstart (L.cubeOf p + moore j)) (L.cend (L.cubeOf p + moore j)),
      if normSq (X (L.cellOf p) - X (L.cellOf k.toNat)) < 1 then
        pw (X (L.cellOf p)) (X (L.cellOf p) - X (L.cellOf k.toNat))
          (normSq (X (L.cellOf p) - X (L.cellOf k.toNat))) (L.cellOf p) (L.cellOf k.toNat)
      else 0

/-- `compute_lattice_pwints`, neighbour-count accumulator of the thread at
sorted position `p`. -/
def lat_cnt (X : ℕ → Pt) (L : LatticeArrays) (p : ℕ) : ℤ :=
  ∑ j ∈ Finset.range 27,
    ∑ k ∈ Finset.Icc (L.cstart (L.cubeOf p + moore j)) (L.cend (L.cubeOf p + moore j)),
      if normSq (X (L.cellOf p) - X (L.cellOf k.toNat)) < 1 then 1 else 0

/-- `compute_lattice_pwints`, neighbour-velocity accumulator of the thread
at sorted position `p`: `d_sum_v[...] += d_old_v[d_cell_id[k]]`. -/
def lat_sv (X : ℕ → Pt) (old_v : ℕ → V3) (L : LatticeArrays) (p : ℕ) : V3 :=
  ∑ j ∈ Finset.range 27,
    ∑ k ∈ Finset.Icc (L.cstart (L.cubeOf p + moore j)) (L.cend (L.cubeOf p + moore j)),
      if normSq (X (L.cellOf p) - X (L.cellOf k.toNat)) < 1 then
        old_v (L.cellOf k.toNat)
      else 0

/-- `compute_lattice_pwints`, derivative output: the thread at sorted
position `p` stores `d_dX[d_cell_id[p]] = F`. -/
def compute_lattice_dX (pw : PW) (n : ℕ) (X : ℕ → Pt) (L : LatticeArrays)
    (dX0 : ℕ → Pt) : ℕ → Pt :=
  (List.range n).foldl (fun a p => Function.update a (L.cellOf p) (lat_F pw X L p)) dX0

/-- `compute_lattice_pwints`, neighbour counts:
`d_nNBs[d_cell_id[p]] += 1` per in-range candidate, on top of the incoming
buffer. -/
def compute_lattice_nNBs (n : ℕ) (X : ℕ → Pt) (L : LatticeArrays)
    (nNBs0 : ℕ → ℤ) : ℕ → ℤ :=
  (List.range n).foldl
    (fun a p => Function.update a (L.cellOf p) (a (L.cellOf p) + lat_cnt X L p)) nNBs0

/-- `compute_lattice_pwints`, neighbour velocity sums. -/
def compute_lattice_sum_v (n : ℕ) (X : ℕ → Pt) (old_v : ℕ → V3) (L : LatticeArrays)
    (sum_v0 : ℕ → V3) : ℕ → V3 :=
  (List.range n).foldl
    (fun a p => Function.update a (L.cellOf p) (a (L.cellOf p) + lat_sv X old_v L p)) sum_v0

/-- An entity sits in an interior lattice cube: each of its three cube
coordinates is at least one cube away from the boundary of the
`LATTICE_SIZE`-wide grid. -/
def interior (cube_size : ℚ) (p : Pt) : Prop :=
  (1 ≤ ⌊p.x / cube_size⌋ + LATTICE_SIZE / 2 ∧ ⌊p.x / cube_size⌋ + LATTICE_SIZE / 2 ≤ LATTICE_SIZE - 2) ∧
  (1 ≤ ⌊p.y / cube_size⌋ + LATTICE_SIZE / 2 ∧ ⌊p.y / cube_size⌋ + LATTICE_SIZE / 2 ≤ LATTICE_SIZE - 2) ∧
  (1 ≤ ⌊p.z / cube_size⌋ + LATTICE_SIZE / 2 ∧ ⌊p.z / cube_size⌋ + LATTICE_SIZE / 2 ≤ LATTICE_SIZE - 2)

instance (cube_size : ℚ) (p : Pt) : Decidable (interior cube_size p) := by
  unfold interior
  infer_instance

section CubeStartEnd

variable (S : ℕ → ℤ) (n : ℕ)

lemma cse_iter_succ (m : ℕ) :
    cse_iter S n (m + 1) = cse_upd S n m (cse_iter S n m) := by
  unfold cse_iter
  rw [List.range_succ, List.foldl_append, List.foldl_cons, List.foldl_nil]

lemma cse_upd_fst_other (i : ℕ) (se : (ℤ → ℤ) × (ℤ → ℤ)) {b : ℤ} (hb : S i ≠ b) :
    (cse_upd S n i se).1 b = se.1 b := by
  unfold cse_upd
  by_cases hw : S i ≠ prevId S i
  · simp only [if_pos hw]
    exact Function.update_noteq (fun h => hb h.symm) _ _
  · simp only [if_neg hw]

lemma cse_upd_snd_other (i : ℕ) (se : (ℤ → ℤ) × (ℤ → ℤ)) {b : ℤ} (hb : S i ≠ b) :
    (cse_upd S n i se).2 b = se.2 b := by
  unfold cse_upd
  by_cases hw : S i ≠ nextId S n i
  · simp only [if_pos hw]
    exact Function.update_noteq (fun h => hb h.symm) _ _
  · simp only [if_neg hw]

lemma cse_upd_fst_skip (i : ℕ) (se : (ℤ → ℤ) × (ℤ → ℤ)) (hw : S i = prevId S i) :
    (cse_upd S n i se).1 = se.1 := by
  unfold cse_upd
  simp only [if_neg (not_not_intro hw)]

lemma cse_upd_snd_skip (i : ℕ) (se : (ℤ → ℤ) × (ℤ → ℤ)) (hw : S i = nextId S n i) :
    (cse_upd S n i se).2 = se.2 := by
  unfold cse_upd
  simp only [if_neg (not_not_intro hw)]

lemma cse_upd_fst_write (i : ℕ) (se : (ℤ → ℤ) × (ℤ → ℤ)) (hw : S i ≠ prevId S i) :
    (cse_upd S n i se).1 (S i) = i := by
  unfold cse_upd
  simp only [if_pos hw]
  exact Function.update_same _ _ _

lemma cse_upd_snd_write (i : ℕ) (se : (ℤ → ℤ) × (ℤ → ℤ)) (hw : S i ≠ nextId S n i) :
    (cse_upd S n i se).2 (S i) = i := by
  unfold cse_upd
  simp only [if_pos hw]
  exact Function.update_same _ _ _

/-- No thread touches bucket `b`: both sentinels survive. -/
lemma cse_none (b : ℤ) (m : ℕ) (h : ∀ i < m, S i ≠ b) :
    (cse_iter S n m).1 b = -1 ∧ (cse_iter S n m).2 b = -2 := by
  induction m with
  | zero => exact ⟨rfl, rfl⟩
  | succ m ih =>
      have hm := ih (fun i hi => h i (Nat.lt_succ_of_lt hi))
      have hb : S m ≠ b := h m (Nat.lt_succ_self m)
      rw [cse_iter_succ]
      exact ⟨(cse_upd_fst_other S n m _ hb).trans hm.1,
        (cse_upd_snd_other S n m _ hb).trans hm.2⟩

lemma cse_start_stable (b : ℤ) (m0 m : ℕ) (hm : m0 ≤ m)
    (h : ∀ i, m0 ≤ i → i < m → S i = b → S i = prevId S i) :
    (cse_iter S n m).1 b = (cse_iter S n m0).1 b := by
  induction m with
  | zero => cases Nat.le_zero.mp hm; rfl
  | succ m ih =>
      by_cases hm0 : m0 = m + 1
      · rw [hm0]
      · have hm' : m0 ≤ m := by omega
        have ihm := ih hm' (fun i h1 h2 => h i h1 (by omega))
        rw [cse_iter_succ]
        by_cases hb : S m = b
        · rw [cse_upd_fst_skip S n m _ (h m hm' (by omega) hb)]
          exact ihm
        · rw [cse_upd_fst_other S n m _ hb]
          exact ihm

lemma cse_end_stable (b : ℤ) (m0 m : ℕ) (hm : m0 ≤ m)
    (h : ∀ i, m0 ≤ i → i < m → S i = b → S i = nextId S n i) :
    (cse_iter S n m).2 b = (cse_iter S n m0).2 b := by
  induction m with
  | zero => cases Nat.le_zero.mp hm; rfl
  | succ m ih =>
      by_cases hm0 : m0 = m + 1
      · rw [hm0]
      · have hm' : m0 ≤ m := by omega
        have ihm := ih hm' (fun i h1 h2 => h i h1 (by omega))
        rw [cse_iter_succ]
        by_cases hb : S m = b
        · rw [cse_upd_snd_skip S n m _ (h m hm' (by omega) hb)]
          exact ihm
        · rw [cse_upd_snd_other S n m _ hb]
          exact ihm

/-- With sorted nonnegative ids, the start of an occupied bucket is the
first sorted position of its run. -/
lemma cse_start_occ (b : ℤ) (p0 : ℕ) (hp0 : p0 < n) (hb : S p0 = b)
    (hleast : ∀ q, q < p0 → S q ≠ b)
    (hmono : ∀ p q, p ≤ q → q < n → S p ≤ S q)
    (hpos : 0 ≤ b) :
    (cse_iter S n n).1 b = p0 := by
  have hw : S p0 ≠ prevId S p0 := by
    unfold prevId
    by_cases h0 : 0 < p0
    · rw [if_pos h0]
      intro heq
      exact hleast (p0 - 1) (by omega) (heq ▸ hb)
    · rw [if_neg h0]
      intro heq
      rw [hb] at heq
      omega
  have hstable : (cse_iter S n n).1 b = (cse_iter S n (p0 + 1)).1 b := by
    apply cse_start_stable S n b (p0 + 1) n (by omega)
    intro i h1 h2 hib
    unfold prevId
    rw [if_pos (by omega : 0 < i)]
    have h1' : S p0 ≤ S (i - 1) := hmono p0 (i - 1) (by omega) (by omega)
    have h2' : S (i - 1) ≤ S i := hmono (i - 1) i (by omega) h2
    rw [hb] at h1'
    rw [hib] at h2' ⊢
    omega
  rw [hstable, cse_iter_succ, ← hb, cse_upd_fst_write S n p0 _ hw]

/-- With sorted ids, the end of an occupied bucket is the last sorted
position of its run. -/
lemma cse_end_occ (b : ℤ) (p1 : ℕ) (hp1 : p1 < n) (hb : S p1 = b)
    (hgreat : ∀ q, p1 < q → q < n → S q ≠ b) :
    (cse_iter S n n).2 b = p1 := by
  have hw : S p1 ≠ nextId S n p1 := by
    unfold nextId
    by_cases h1 : p1 < n - 1
    · rw [if_pos h1]
      intro heq
      exact hgreat (p1 + 1) (by omega) (by omega) (heq ▸ hb)
    · rw [if_neg h1]
      omega
  have hstable : (cse_iter S n n).2 b = (cse_iter S n (p1 + 1)).2 b := by
    apply cse_end_stable S n b (p1 + 1) n (by omega)
    intro i h1 h2 hib
    exact absurd hib (hgreat i (by omega) h2)
  rw [hstable, cse_iter_succ, ← hb, cse_upd_snd_write S n p1 _ hw]

end CubeStartEnd

section SortedFacts

variable (cs : ℚ) (n : ℕ) (X : ℕ → Pt)

lemma lattice_sorted_length : (lattice_sorted cs n X).length = n := by
  unfold lattice_sorted lattice_pairs
  rw [List.length_insertionSort, List.length_map, List.length_range]

lemma lattice_sorted_perm : (lattice_sorted cs n X).Perm (lattice_pairs cs n X) :=
  List.perm_insertionSort _ _

lemma lattice_sorted_sorted : List.Sorted keyOrd (lattice_sorted cs n X) :=
  List.sorted_insertionSort _ _

lemma mem_lattice_pairs (c : ℤ) (e : ℕ) :
    (c, e) ∈ lattice_pairs cs n X ↔ e < n ∧ c = cube_id cs (X e) := by
  unfold lattice_pairs
  constructor
  · intro h
    rcases List.mem_map.mp h with ⟨i, hi, hfi⟩
    cases hfi
    exact ⟨List.mem_range.mp hi, rfl⟩
  · rintro ⟨he, rfl⟩
    exact List.mem_map.mpr ⟨e, List.mem_range.mpr he, rfl⟩

lemma bl_cubeOf (p : ℕ) :
    (build_lattice cs n X).cubeOf p = ((lattice_sorted cs n X).getD p (0, 0)).1 := rfl

lemma bl_cellOf (p : ℕ) :
    (build_lattice cs n X).cellOf p = ((lattice_sorted cs n X).getD p (0, 0)).2 := rfl

lemma bl_cstart :
    (build_lattice cs n X).cstart = (cse_iter (build_lattice cs n X).cubeOf n n).1 := rfl

lemma bl_cend :
    (build_lattice cs n X).cend = (cse_iter (build_lattice cs n X).cubeOf n n).2 := rfl

lemma bl_pair_mem {p : ℕ} (hp : p < n) :
    ((build_lattice cs n X).cubeOf p, (build_lattice cs n X).cellOf p) ∈
      lattice_pairs cs n X := by
  have hlen : p < (lattice_sorted cs n X).length := by
    rw [lattice_sorted_length]
    exact hp
  rw [bl_cubeOf, bl_cellOf, List.getD_eq_get _ _ hlen]
  exact (lattice_sorted_perm cs n X).mem_iff.mp (List.get_mem _ p hlen)

/-- At a live sorted position the stored cube id is the cube id of the
stored cell, and the stored cell is live. -/
lemma bl_cube_cell {p : ℕ} (hp : p < n) :
    (build_lattice cs n X).cellOf p < n ∧
      (build_lattice cs n X).cubeOf p =
        cube_id cs (X ((build_lattice cs n X).cellOf p)) :=
  (mem_lattice_pairs cs n X _ _).mp (bl_pair_mem cs n X hp)

lemma bl_mono {p q : ℕ} (hpq : p ≤ q) (hq : q < n) :
    (build_lattice cs n X).cubeOf p ≤ (build_lattice cs n X).cubeOf q := by
  rcases Nat.lt_or_ge p q with hlt | hge
  · have hlp : p < (lattice_sorted cs n X).length := by
      rw [lattice_sorted_length]
      omega
    have hlq : q < (lattice_sorted cs n X).length := by
      rw [lattice_sorted_length]
      exact hq
    have := List.pairwise_iff_get.mp (lattice_sorted_sorted cs n X) ⟨p, hlp⟩ ⟨q, hlq⟩ hlt
    rw [bl_cubeOf, bl_cubeOf, List.getD_eq_get _ _ hlp, List.getD_eq_get _ _ hlq]
    exact this
  · have : p = q := by omega
    rw [this]

lemma bl_cell_list_perm :
    ((lattice_sorted cs n X).map Prod.snd).Perm (List.range n) := by
  have h1 := (lattice_sorted_perm cs n X).map Prod.snd
  have h2 : (lattice_pairs cs n X).map Prod.snd = List.range n := by
    unfold lattice_pairs
    rw [List.map_map]
    exact List.map_id _
  rw [h2] at h1
  exact h1

lemma bl_cell_nodup : ((lattice_sorted cs n X).map Prod.snd).Nodup :=
  (bl_cell_list_perm cs n X).nodup_iff.mpr (List.nodup_range n)

lemma bl_cell_get {p : ℕ} (hp : p < n) :
    ∀ hlen : p < ((lattice_sorted cs n X).map Prod.snd).length,
      ((lattice_sorted cs n X).map Prod.snd).get ⟨p, hlen⟩ =
        (build_lattice cs n X).cellOf p := by
  intro hlen
  have hlen' : p < (lattice_sorted cs n X).length := by
    rw [lattice_sorted_length]
    exact hp
  rw [List.get_map, bl_cellOf, List.getD_eq_get _ _ hlen']

lemma bl_cell_inj {p q : ℕ} (hp : p < n) (hq : q < n)
    (h : (build_lattice cs n X).cellOf p = (build_lattice cs n X).cellOf q) : p = q := by
  have hlp : p < ((lattice_sorted cs n X).map Prod.snd).length := by
    rw [List.length_map, lattice_sorted_length]
    exact hp
  have hlq : q < ((lattice_sorted cs n X).map Prod.snd).length := by
    rw [List.length_map, lattice_sorted_length]
    exact hq
  have := (List.Nodup.get_inj_iff (bl_cell_nodup cs n X)
    (i := ⟨p, hlp⟩) (j := ⟨q, hlq⟩)).mp
  rw [bl_cell_get cs n X hp hlp, bl_cell_get cs n X hq hlq] at this
  exact congrArg Fin.val (this h)

lemma bl_cell_surj {e : ℕ} (he : e < n) :
    ∃ p, p < n ∧ (build_lattice cs n X).cellOf p = e := by
  have hmem : e ∈ (lattice_sorted cs n X).map Prod.snd :=
    (bl_cell_list_perm cs n X).mem_iff.mpr (List.mem_range.mpr he)
  rcases List.mem_iff_get.mp hmem with ⟨⟨p, hlen⟩, hget⟩
  have hp : p < n := by
    have := hlen
    rw [List.length_map, lattice_sorted_length] at this
    exact this
  refine ⟨p, hp, ?_⟩
  rw [← bl_cell_get cs n X hp hlen]
  exact hget

end SortedFacts

section BucketRanges

variable (cs : ℚ) (n : ℕ) (X : ℕ → Pt)

lemma bl_range_sum {M : Type} [AddCommMonoid M] (b : ℤ)
    (hv : ∀ i, i < n → 0 ≤ cube_id cs (X i)) (f : ℕ → M) :
    (∑ k ∈ Finset.Icc ((build_lattice cs n X).cstart b) ((build_lattice cs n X).cend b),
        f k.toNat)
      = ∑ p ∈ (Finset.range n).filter
          (fun p => (build_lattice cs n X).cubeOf p = b), f p := by
  rcases ((Finset.range n).filter
      (fun p => (build_lattice cs n X).cubeOf p = b)).eq_empty_or_nonempty with hemp | hne
  · have hnone : ∀ i, i < n → (build_lattice cs n X).cubeOf i ≠ b := by
      intro i hi hib
      have hmem : i ∈ (Finset.range n).filter
          (fun p => (build_lattice cs n X).cubeOf p = b) :=
        Finset.mem_filter.mpr ⟨Finset.mem_range.mpr hi, hib⟩
      rw [hemp] at hmem
      exact absurd hmem (Finset.not_mem_empty i)
    have hcs : (build_lattice cs n X).cstart b = -1 := by
      rw [bl_cstart]
      exact (cse_none _ n b n (fun i hi => hnone i hi)).1
    have hce : (build_lattice cs n X).cend b = -2 := by
      rw [bl_cend]
      exact (cse_none _ n b n (fun i hi => hnone i hi)).2
    rw [hcs, hce, hemp]
    rw [show Finset.Icc (-1 : ℤ) (-2) = ∅ from by decide]
    simp
  · have hmono : ∀ p q, p ≤ q → q < n →
        (build_lattice cs n X).cubeOf p ≤ (build_lattice cs n X).cubeOf q :=
      fun p q hpq hq => bl_mono cs n X hpq hq
    have hminmem := Finset.min'_mem _ hne
    have hmaxmem := Finset.max'_mem _ hne
    rcases Finset.mem_filter.mp hminmem with ⟨hp0r, hp0b⟩
    rcases Finset.mem_filter.mp hmaxmem with ⟨hp1r, hp1b⟩
    have hp0n := Finset.mem_range.mp hp0r
    have hp1n := Finset.mem_range.mp hp1r
    have hleast : ∀ q, q < Finset.min' _ hne → (build_lattice cs n X).cubeOf q ≠ b := by
      intro q hq hqb
      have : Finset.min' _ hne ≤ q :=
        Finset.min'_le _ q (Finset.mem_filter.mpr ⟨Finset.mem_range.mpr (by omega), hqb⟩)
      omega
    have hgreat : ∀ q, Finset.max' _ hne < q → q < n →
        (build_lattice cs n X).cubeOf q ≠ b := by
      intro q hq hqn hqb
      have : q ≤ Finset.max' _ hne :=
        Finset.le_max' _ q (Finset.mem_filter.mpr ⟨Finset.mem_range.mpr hqn, hqb⟩)
      omega
    have hstart : (build_lattice cs n X).cstart b = Finset.min' _ hne := by
      rw [bl_cstart]
      refine cse_start_occ _ n b _ hp0n hp0b hleast hmono ?_
      rw [← hp0b]
      have h := bl_cube_cell cs n X hp0n
      rw [h.2]
      exact hv _ h.1
    have hend : (build_lattice cs n X).cend b = Finset.max' _ hne := by
      rw [bl_cend]
      exact cse_end_occ _ n b _ hp1n hp1b hgreat
    rw [hstart, hend]
    have himg : Finset.Icc ((Finset.min' _ hne : ℕ) : ℤ) ((Finset.max' _ hne : ℕ) : ℤ) =
        ((Finset.range n).filter
          (fun p => (build_lattice cs n X).cubeOf p = b)).image (fun (p : ℕ) => (p : ℤ)) := by
      ext k
      simp only [Finset.mem_Icc, Finset.mem_image, Finset.mem_filter, Finset.mem_range]
      constructor
      · rintro ⟨hk1, hk2⟩
        refine ⟨k.toNat, ⟨by omega, ?_⟩, by omega⟩
        have h1 : (build_lattice cs n X).cubeOf (Finset.min' _ hne) ≤
            (build_lattice cs n X).cubeOf k.toNat := hmono _ _ (by omega) (by omega)
        have h2 : (build_lattice cs n X).cubeOf k.toNat ≤
            (build_lattice cs n X).cubeOf (Finset.max' _ hne) := hmono _ _ (by omega) hp1n
        rw [hp0b] at h1
        rw [hp1b] at h2
        omega
      · rintro ⟨p, ⟨hpn, hpb⟩, rfl⟩
        have hge : Finset.min' _ hne ≤ p :=
          Finset.min'_le _ p (Finset.mem_filter.mpr ⟨Finset.mem_range.mpr hpn, hpb⟩)
        have hle : p ≤ Finset.max' _ hne :=
          Finset.le_max' _ p (Finset.mem_filter.mpr ⟨Finset.mem_range.mpr hpn, hpb⟩)
        omega
    rw [himg, Finset.sum_image (fun x _ y _ h => by omega)]
    exact Finset.sum_congr rfl (fun p _ => congrArg f (by omega))

lemma moore_inj :
    ∀ i ∈ Finset.range 27, ∀ j ∈ Finset.range 27, moore i = moore j → i = j := by decide

lemma bl_moore_sum {M : Type} [AddCommMonoid M] (c : ℤ) (f : ℕ → M) :
    (∑ j ∈ Finset.range 27, ∑ p ∈ (Finset.range n).filter
        (fun p => (build_lattice cs n X).cubeOf p = c + moore j), f p)
      = ∑ p ∈ (Finset.range n).filter
          (fun p => (build_lattice cs n X).cubeOf p ∈ mooreSet c), f p := by
  rw [← Finset.sum_biUnion]
  · congr 1
    ext p
    simp only [Finset.mem_biUnion, Finset.mem_filter, Finset.mem_range, mooreSet,
      Finset.mem_image]
    constructor
    · rintro ⟨j, hj, hpn, hpb⟩
      exact ⟨hpn, j, hj, hpb.symm⟩
    · rintro ⟨hpn, j, hj, hpb⟩
      exact ⟨j, hj, hpn, hpb.symm⟩
  · intro i hi j hj hij
    refine Finset.disjoint_left.mpr ?_
    intro p hpi hpj
    rcases Finset.mem_filter.mp hpi with ⟨_, hbi⟩
    rcases Finset.mem_filter.mp hpj with ⟨_, hbj⟩
    exact hij (moore_inj i hi j hj (by omega))

/-- The full 27-bucket probe of the lattice kernel visits exactly the
sorted positions whose bucket lies in the Moore neighbourhood. -/
lemma bl_probe_sum {M : Type} [AddCommMonoid M] (p : ℕ)
    (hv : ∀ i, i < n → 0 ≤ cube_id cs (X i)) (g : ℕ → M) :
    (∑ j ∈ Finset.range 27,
        ∑ k ∈ Finset.Icc
          ((build_lattice cs n X).cstart ((build_lattice cs n X).cubeOf p + moore j))
          ((build_lattice cs n X).cend ((build_lattice cs n X).cubeOf p + moore j)),
          g k.toNat)
      = ∑ q ∈ (Finset.range n).filter
          (fun q => (build_lattice cs n X).cubeOf q ∈
            mooreSet ((build_lattice cs n X).cubeOf p)), g q := by
  rw [Finset.sum_congr rfl
    (fun j _ => bl_range_sum cs n X ((build_lattice cs n X).cubeOf p + moore j) hv g)]
  exact bl_moore_sum cs n X _ g

/-- Transport a sum over sorted positions to a sum over entities through
the `d_cell_id` permutation. -/
lemma bl_entity_sum {M : Type} [AddCommMonoid M] (c : ℤ) (g : ℕ → M) :
    (∑ q ∈ (Finset.range n).filter
        (fun q => (build_lattice cs n X).cubeOf q ∈ mooreSet c),
        g ((build_lattice cs n X).cellOf q))
      = ∑ e ∈ (Finset.range n).filter
          (fun e => cube_id cs (X e) ∈ mooreSet c), g e := by
  refine Finset.sum_bij (fun q _ => (build_lattice cs n X).cellOf q) ?_ ?_ ?_ ?_
  · intro q hq
    rcases Finset.mem_filter.mp hq with ⟨hqr, hqb⟩
    have h := bl_cube_cell cs n X (Finset.mem_range.mp hqr)
    refine Finset.mem_filter.mpr ⟨Finset.mem_range.mpr h.1, ?_⟩
    rw [← h.2]
    exact hqb
  · intro q1 h1 q2 h2 heq
    exact bl_cell_inj cs n X
      (Finset.mem_range.mp (Finset.mem_filter.mp h1).1)
      (Finset.mem_range.mp (Finset.mem_filter.mp h2).1) heq
  · intro e he
    rcases Finset.mem_filter.mp he with ⟨her, heb⟩
    rcases bl_cell_surj cs n X (Finset.mem_range.mp her) with ⟨q, hq, hqe⟩
    have h := bl_cube_cell cs n X hq
    refine ⟨q, Finset.mem_filter.mpr ⟨Finset.mem_range.mpr hq, ?_⟩, hqe⟩
    rw [h.2, hqe]
    exact heb
  · intro q hq
    rfl

end BucketRanges

section FoldUpdate

variable {β : Type}

lemma foldl_assign_other (L : List ℕ) (key : ℕ → ℕ) (v : ℕ → β) (A : ℕ → β) (e : ℕ)
    (h : ∀ p ∈ L, key p ≠ e) :
    (L.foldl (fun a p => Function.update a (key p) (v p)) A) e = A e := by
  induction L generalizing A with
  | nil => rfl
  | cons q L ih =>
      rw [List.foldl_cons, ih _ (fun p hp => h p (List.mem_cons_of_mem q hp))]
      exact Function.update_noteq (fun hh => h q (List.mem_cons_self q L) hh.symm) _ _

lemma foldl_assign_eq (L : List ℕ) (key : ℕ → ℕ) (v : ℕ → β) (A : ℕ → β) {e p : ℕ}
    (hinj : ∀ p' ∈ L, ∀ q ∈ L, key p' = key q → p' = q)
    (hp : p ∈ L) (hkey : key p = e) :
    (L.foldl (fun a p => Function.update a (key p) (v p)) A) e = v p := by
  induction L generalizing A with
  | nil => exact absurd hp (List.not_mem_nil p)
  | cons q L ih =>
      rw [List.foldl_cons]
      by_cases hpL : p ∈ L
      · exact ih _ (fun a ha b hb hab =>
          hinj a (List.mem_cons_of_mem q ha) b (List.mem_cons_of_mem q hb) hab) hpL
      · have hpq : p = q := by
          rcases List.mem_cons.mp hp with h | h
          · exact h
          · exact absurd h hpL
        subst hpq
        have hother : ∀ q' ∈ L, key q' ≠ e := by
          intro q' hq' hq'e
          have : q' = p := hinj q' (List.mem_cons_of_mem p hq')
            p (List.mem_cons_self p L) (by rw [hq'e, hkey])
          exact hpL (this ▸ hq')
        rw [foldl_assign_other L key v _ e hother, ← hkey]
        exact Function.update_same _ _ _

lemma foldl_incr_other [Add β] (L : List ℕ) (key : ℕ → ℕ) (v : ℕ → β) (A : ℕ → β) (e : ℕ)
    (h : ∀ p ∈ L, key p ≠ e) :
    (L.foldl (fun a p => Function.update a (key p) (a (key p) + v p)) A) e = A e := by
  induction L generalizing A with
  | nil => rfl
  | cons q L ih =>
      rw [List.foldl_cons, ih _ (fun p hp => h p (List.mem_cons_of_mem q hp))]
      exact Function.update_noteq (fun hh => h q (List.mem_cons_self q L) hh.symm) _ _

lemma foldl_incr_eq [Add β] (L : List ℕ) (key : ℕ → ℕ) (v : ℕ → β) (A : ℕ → β) {e p : ℕ}
    (hnodup : L.Nodup)
    (hinj : ∀ p' ∈ L, ∀ q ∈ L, key p' = key q → p' = q)
    (hp : p ∈ L) (hkey : key p = e) :
    (L.foldl (fun a p => Function.update a (key p) (a (key p) + v p)) A) e = A e + v p := by
  induction L generalizing A with
  | nil => exact absurd hp (List.not_mem_nil p)
  | cons q L ih =>
      rw [List.foldl_cons]
      by_cases hpq : p = q
      · subst hpq
        have hpL : p ∉ L := (List.nodup_cons.mp hnodup).1
        have hother : ∀ q' ∈ L, key q' ≠ e := by
          intro q' hq' hq'e
          have : q' = p := hinj q' (List.mem_cons_of_mem p hq')
            p (List.mem_cons_self p L) (by rw [hq'e, hkey])
          exact hpL (this ▸ hq')
        rw [foldl_incr_other L key v _ e hother, ← hkey]
        rw [Function.update_same]
      · have hpL : p ∈ L := by
          rcases List.mem_cons.mp hp with h | h
          · exact absurd h hpq
          · exact h
        have hkq : key q ≠ e := by
          intro hh
          exact hpq (hinj p hp q (List.mem_cons_self q L) (by rw [hkey, hh]))
        have hAe : Function.update A (key q) (A (key q) + v q) e = A e :=
          Function.update_noteq (fun hh => hkq hh.symm) _ _
        rw [ih _ (List.nodup_cons.mp hnodup).2
          (fun a ha b hb hab =>
            hinj a (List.mem_cons_of_mem q ha) b (List.mem_cons_of_mem q hb) hab) hpL, hAe]

end FoldUpdate

section LatticeChar

variable (cs : ℚ) (n : ℕ) (X : ℕ → Pt)

/-- The set of live entities that the lattice evaluator accumulates for the
entity `e`: entities whose bucket lies in the Moore neighbourhood of `e`'s
bucket and that are strictly within the unit radius. -/
def latNbhd (e : ℕ) : Finset ℕ :=
  (Finset.range n).filter
    (fun f => cube_id cs (X f) ∈ mooreSet (cube_id cs (X e)) ∧ normSq (X e - X f) < 1)

lemma lat_cnt_char {p : ℕ} (hp : p < n)
    (hv : ∀ i, i < n → 0 ≤ cube_id cs (X i)) :
    lat_cnt X (build_lattice cs n X) p =
      ((latNbhd cs n X ((build_lattice cs n X).cellOf p)).card : ℤ) := by
  unfold lat_cnt
  rw [bl_probe_sum cs n X p hv
    (fun q => if normSq (X ((build_lattice cs n X).cellOf p) -
      X ((build_lattice cs n X).cellOf q)) < 1 then (1 : ℤ) else 0)]
  rw [bl_entity_sum cs n X ((build_lattice cs n X).cubeOf p)
    (fun f => if normSq (X ((build_lattice cs n X).cellOf p) - X f) < 1 then (1 : ℤ) else 0)]
  rw [Finset.sum_boole, (bl_cube_cell cs n X hp).2]
  unfold latNbhd
  rw [Finset.filter_filter]

lemma lat_F_char (pw : PW) {p : ℕ} (hp : p < n)
    (hv : ∀ i, i < n → 0 ≤ cube_id cs (X i)) :
    lat_F pw X (build_lattice cs n X) p =
      ∑ f ∈ latNbhd cs n X ((build_lattice cs n X).cellOf p),
        pw (X ((build_lattice cs n X).cellOf p))
          (X ((build_lattice cs n X).cellOf p) - X f)
          (normSq (X ((build_lattice cs n X).cellOf p) - X f))
          ((build_lattice cs n X).cellOf p) f := by
  unfold lat_F
  rw [bl_probe_sum cs n X p hv
    (fun q => if normSq (X ((build_lattice cs n X).cellOf p) -
        X ((build_lattice cs n X).cellOf q)) < 1 then
      pw (X ((build_lattice cs n X).cellOf p))
        (X ((build_lattice cs n X).cellOf p) - X ((build_lattice cs n X).cellOf q))
        (normSq (X ((build_lattice cs n X).cellOf p) - X ((build_lattice cs n X).cellOf q)))
        ((build_lattice cs n X).cellOf p) ((build_lattice cs n X).cellOf q)
      else 0)]
  rw [bl_entity_sum cs n X ((build_lattice cs n X).cubeOf p)
    (fun f => if normSq (X ((build_lattice cs n X).cellOf p) - X f) < 1 then
      pw (X ((build_lattice cs n X).cellOf p))
        (X ((build_lattice cs n X).cellOf p) - X f)
        (normSq (X ((build_lattice cs n X).cellOf p) - X f))
        ((build_lattice cs n X).cellOf p) f
      else 0)]
  rw [(bl_cube_cell cs n X hp).2]
  unfold latNbhd
  rw [← Finset.filter_filter, Finset.sum_filter, Finset.sum_filter, Finset.sum_filter]

lemma lat_sv_char (old_v : ℕ → V3) {p : ℕ} (hp : p < n)
    (hv : ∀ i, i < n → 0 ≤ cube_id cs (X i)) :
    lat_sv X old_v (build_lattice cs n X) p =
      ∑ f ∈ latNbhd cs n X ((build_lattice cs n X).cellOf p), old_v f := by
  unfold lat_sv
  rw [bl_probe_sum cs n X p hv
    (fun q => if normSq (X ((build_lattice cs n X).cellOf p) -
      X ((build_lattice cs n X).cellOf q)) < 1 then old_v ((build_lattice cs n X).cellOf q)
      else 0)]
  rw [bl_entity_sum cs n X ((build_lattice cs n X).cubeOf p)
    (fun f => if normSq (X ((build_lattice cs n X).cellOf p) - X f) < 1 then old_v f else 0)]
  rw [(bl_cube_cell cs n X hp).2]
  unfold latNbhd
  rw [← Finset.filter_filter, Finset.sum_filter, Finset.sum_filter, Finset.sum_filter]

lemma compute_lattice_dX_pos (pw : PW) (dX0 : ℕ → Pt) {p : ℕ} (hp : p < n) :
    compute_lattice_dX pw n X (build_lattice cs n X) dX0 ((build_lattice cs n X).cellOf p) =
      lat_F pw X (build_lattice cs n X) p := by
  unfold compute_lattice_dX
  exact foldl_assign_eq (List.range n) _ _ dX0
    (fun a ha b hb hab => bl_cell_inj cs n X
      (List.mem_range.mp ha) (List.mem_range.mp hb) hab)
    (List.mem_range.mpr hp) rfl

lemma compute_lattice_nNBs_pos (nNBs0 : ℕ → ℤ) {p : ℕ} (hp : p < n) :
    compute_lattice_nNBs n X (build_lattice cs n X) nNBs0 ((build_lattice cs n X).cellOf p) =
      nNBs0 ((build_lattice cs n X).cellOf p) + lat_cnt X (build_lattice cs n X) p := by
  unfold compute_lattice_nNBs
  exact foldl_incr_eq (List.range n) _ _ nNBs0 (List.nodup_range n)
    (fun a ha b hb hab => bl_cell_inj cs n X
      (List.mem_range.mp ha) (List.mem_range.mp hb) hab)
    (List.mem_range.mpr hp) rfl

lemma compute_lattice_sum_v_pos (old_v : ℕ → V3) (sum_v0 : ℕ → V3) {p : ℕ} (hp : p < n) :
    compute_lattice_sum_v n X old_v (build_lattice cs n X) sum_v0
        ((build_lattice cs n X).cellOf p) =
      sum_v0 ((build_lattice cs n X).cellOf p) + lat_sv X old_v (build_lattice cs n X) p := by
  unfold compute_lattice_sum_v
  exact foldl_incr_eq (List.range n) _ _ sum_v0 (List.nodup_range n)
    (fun a ha b hb hab => bl_cell_inj cs n X
      (List.mem_range.mp ha) (List.mem_range.mp hb) hab)
    (List.mem_range.mpr hp) rfl

end LatticeChar

section Geometry

lemma normSq_self (a : Pt) : normSq (a - a) = 0 := by
  unfold normSq
  simp

lemma normSq_comm (a b : Pt) : normSq (a - b) = normSq (b - a) := by
  unfold normSq
  simp only [Pt.sub_x, Pt.sub_y, Pt.sub_z]
  ring

lemma floor_diff_le {u v : ℚ} (h : (u - v) ^ 2 < 1) :
    ⌊v⌋ - 1 ≤ ⌊u⌋ ∧ ⌊u⌋ ≤ ⌊v⌋ + 1 := by
  have habs : |u - v| < 1 := (sq_lt_one_iff_abs_lt_one _).mp h
  rw [abs_lt] at habs
  constructor
  · have h1 : v + (-1 : ℤ) ≤ u := by push_cast; linarith
    have h2 := Int.floor_mono h1
    rw [Int.floor_add_int] at h2
    omega
  · have h1 : u ≤ v + 1 := by linarith
    have h2 := Int.floor_mono h1
    rw [Int.floor_add_one] at h2
    omega

lemma cube_id_one (p : Pt) :
    cube_id 1 p = (⌊p.x⌋ + 25) + (⌊p.y⌋ + 25) * 50 + (⌊p.z⌋ + 25) * 2500 := by
  unfold cube_id LATTICE_SIZE
  norm_num

lemma moore_covers :
    ∀ dx ∈ Finset.Icc (-1 : ℤ) 1, ∀ dy ∈ Finset.Icc (-1 : ℤ) 1,
      ∀ dz ∈ Finset.Icc (-1 : ℤ) 1,
        ∃ j ∈ Finset.range 27, moore j = dx + dy * 50 + dz * 2500 := by decide

/-- Any entity strictly within the unit radius of `a` lies in a bucket of
`a`'s Moore neighbourhood (with the unit cube size, coordinates within 1
differ by at most one cube per axis, and the linear id differences are
exactly the precomputed offsets). -/
lemma neighbor_moore (a b : Pt) (h : normSq (a - b) < 1) :
    cube_id 1 b ∈ mooreSet (cube_id 1 a) := by
  have hc : (a.x - b.x) ^ 2 + (a.y - b.y) ^ 2 + (a.z - b.z) ^ 2 < 1 := by
    unfold normSq at h
    simpa using h
  have hx : (b.x - a.x) ^ 2 < 1 := by nlinarith [sq_nonneg (a.y - b.y), sq_nonneg (a.z - b.z)]
  have hy : (b.y - a.y) ^ 2 < 1 := by nlinarith [sq_nonneg (a.x - b.x), sq_nonneg (a.z - b.z)]
  have hz : (b.z - a.z) ^ 2 < 1 := by nlinarith [sq_nonneg (a.x - b.x), sq_nonneg (a.y - b.y)]
  have hdx := floor_diff_le hx
  have hdy := floor_diff_le hy
  have hdz := floor_diff_le hz
  rcases moore_covers (⌊b.x⌋ - ⌊a.x⌋) (Finset.mem_Icc.mpr (by omega))
    (⌊b.y⌋ - ⌊a.y⌋) (Finset.mem_Icc.mpr (by omega))
    (⌊b.z⌋ - ⌊a.z⌋) (Finset.mem_Icc.mpr (by omega)) with ⟨j, hj, hmj⟩
  refine Finset.mem_image.mpr ⟨j, hj, ?_⟩
  rw [hmj, cube_id_one, cube_id_one]
  ring

/-- An interior bucket id is valid: inside `[0, N_CUBES)`. -/
lemma interior_valid {cs : ℚ} {p : Pt} (h : interior cs p) :
    0 ≤ cube_id cs p ∧ cube_id cs p < N_CUBES := by
  unfold interior at h
  unfold cube_id N_CUBES LATTICE_SIZE at *
  omega

/-- With the unit cube size the lattice accumulation set for an entity is
exactly its unit-radius neighbourhood: the Moore condition is implied by
the distance condition. -/
lemma latNbhd_eq_nbhd (n : ℕ) (X : ℕ → Pt) (e : ℕ) :
    latNbhd 1 n X e = nbhd n X e := by
  unfold latNbhd nbhd
  ext f
  simp only [Finset.mem_filter, Finset.mem_range]
  constructor
  · rintro ⟨hf, _, hd⟩
    exact ⟨hf, hd⟩
  · rintro ⟨hf, hd⟩
    exact ⟨hf, neighbor_moore _ _ hd, hd⟩

end Geometry

/-- `Solution<Pt, n_max, Solver>`: the host mirror `h_X, h_n` and the
device mirror `d_X, d_n`.  The counts are C `int`s. -/
structure Solution where
  h_X : ℕ → Pt
  h_n : ℤ
  d_X : ℕ → Pt
  d_n : ℤ

/-- `Solution::copy_to_device`: `assert(*h_n <= n_max)`, then copy the full
`n_max`-sized buffer and the count host-to-device.  A failed assertion
aborts: the call is fallible. -/
def copy_to_device (n_max : ℕ) (s : Solution) : Option Solution :=
  if s.h_n ≤ (n_max : ℤ) then
    some ⟨s.h_X, s.h_n, fun i => if i < n_max then s.h_X i else s.d_X i, s.h_n⟩
  else none

/-- `Solution::copy_to_host`: copy the full `n_max`-sized buffer and the
count device-to-host, then `assert(*h_n <= n_max)` (the copied count). -/
def copy_to_host (n_max : ℕ) (s : Solution) : Option Solution :=
  if s.d_n ≤ (n_max : ℤ) then
    some ⟨fun i => if i < n_max then s.d_X i else s.h_X i, s.d_n, s.d_X, s.d_n⟩
  else none

section Helpers

lemma self_mem_nbhd (n : ℕ) (X : ℕ → Pt) {i : ℕ} (hi : i < n) : i ∈ nbhd n X i :=
  Finset.mem_filter.mpr ⟨Finset.mem_range.mpr hi, by rw [normSq_self]; norm_num⟩

lemma add_rhs_eq_some (n : ℕ) (sum_v : ℕ → V3) (nNBs : ℕ → ℤ) (dX : ℕ → Pt)
    (h : ∀ i, i < n → nNBs i ≠ 0) :
    add_rhs n sum_v nNBs dX =
      some (fun i =>
        if i < n then
          ⟨(dX i).x + (sum_v i).x / (nNBs i : ℚ), (dX i).y + (sum_v i).y / (nNBs i : ℚ),
            (dX i).z + (sum_v i).z / (nNBs i : ℚ), (dX i).w⟩
        else dX i) := by
  unfold add_rhs
  rw [if_pos (fun i hi => h i (Finset.mem_range.mp hi))]

/-- After a tiled evaluation from zeroed accumulators every live entity's
neighbour count is at least one: the self-pair has distance zero. -/
lemma tiles_nNBs_ge_one (n : ℕ) (X : ℕ → Pt) {i : ℕ} (hi : i < n) :
    1 ≤ compute_tiles_nNBs n X (fun _ => 0) i := by
  rw [tiles_nNBs_char n X _ hi]
  have h1 : 0 < (nbhd n X i).card := Finset.card_pos.mpr ⟨i, self_mem_nbhd n X hi⟩
  show (1 : ℤ) ≤ 0 + ((nbhd n X i).card : ℤ)
  omega

/-- Each integrator stage's `add_rhs` succeeds: the divisors are the tiled
neighbour counts, all at least one. -/
lemma stage_dX_isSome (pw : PW) (gf : GF) (n : ℕ) (X : ℕ → Pt) (old_v : ℕ → V3) :
    ∃ d, stage_dX pw gf n X old_v = some d := by
  unfold stage_dX
  refine ⟨_, add_rhs_eq_some _ _ _ _ (fun i hi => ?_)⟩
  have := tiles_nNBs_ge_one n X hi
  omega

/-- Membership in a bucket's `[start, end]` range characterised: exactly
the sorted positions of that bucket. -/
lemma bl_interval_mem (cs : ℚ) (n : ℕ) (X : ℕ → Pt) (b : ℤ)
    (hv : ∀ i, i < n → 0 ≤ cube_id cs (X i)) (k : ℤ) :
    ((build_lattice cs n X).cstart b ≤ k ∧ k ≤ (build_lattice cs n X).cend b) ↔
      (0 ≤ k ∧ k.toNat < n ∧ (build_lattice cs n X).cubeOf k.toNat = b) := by
  rcases ((Finset.range n).filter
      (fun p => (build_lattice cs n X).cubeOf p = b)).eq_empty_or_nonempty with hemp | hne
  · have hnone : ∀ i, i < n → (build_lattice cs n X).cubeOf i ≠ b := by
      intro i hi hib
      have hmem : i ∈ (Finset.range n).filter
          (fun p => (build_lattice cs n X).cubeOf p = b) :=
        Finset.mem_filter.mpr ⟨Finset.mem_range.mpr hi, hib⟩
      rw [hemp] at hmem
      exact absurd hmem (Finset.not_mem_empty i)
    have hcs : (build_lattice cs n X).cstart b = -1 := by
      rw [bl_cstart]
      exact (cse_none _ n b n (fun i hi => hnone i hi)).1
    have hce : (build_lattice cs n X).cend b = -2 := by
      rw [bl_cend]
      exact (cse_none _ n b n (fun i hi => hnone i hi)).2
    rw [hcs, hce]
    constructor
    · intro h
      omega
    · rintro ⟨h0, hkn, hkb⟩
      exact absurd hkb (hnone _ hkn)
  · have hmono : ∀ p q, p ≤ q → q < n →
        (build_lattice cs n X).cubeOf p ≤ (build_lattice cs n X).cubeOf q :=
      fun p q hpq hq => bl_mono cs n X hpq hq
    have hminmem := Finset.min'_mem _ hne
    have hmaxmem := Finset.max'_mem _ hne
    rcases Finset.mem_filter.mp hminmem with ⟨hp0r, hp0b⟩
    rcases Finset.mem_filter.mp hmaxmem with ⟨hp1r, hp1b⟩
    have hp0n := Finset.mem_range.mp hp0r
    have hp1n := Finset.mem_range.mp hp1r
    have hstart : (build_lattice cs n X).cstart b = Finset.min' _ hne := by
      rw [bl_cstart]
      refine cse_start_occ _ n b _ hp0n hp0b ?_ hmono ?_
      · intro q hq hqb
        have : Finset.min' _ hne ≤ q :=
          Finset.min'_le _ q (Finset.mem_filter.mpr ⟨Finset.mem_range.mpr (by omega), hqb⟩)
        omega
      · rw [← hp0b]
        have h := bl_cube_cell cs n X hp0n
        rw [h.2]
        exact hv _ h.1
    have hend : (build_lattice cs n X).cend b = Finset.max' _ hne := by
      rw [bl_cend]
      refine cse_end_occ _ n b _ hp1n hp1b ?_
      intro q hq hqn hqb
      have : q ≤ Finset.max' _ hne :=
        Finset.le_max' _ q (Finset.mem_filter.mpr ⟨Finset.mem_range.mpr hqn, hqb⟩)
      omega
    rw [hstart, hend]
    constructor
    · rintro ⟨hk1, hk2⟩
      refine ⟨by omega, by omega, ?_⟩
      have h1 : (build_lattice cs n X).cubeOf (Finset.min' _ hne) ≤
          (build_lattice cs n X).cubeOf k.toNat := hmono _ _ (by omega) (by omega)
      have h2 : (build_lattice cs n X).cubeOf k.toNat ≤
          (build_lattice cs n X).cubeOf (Finset.max' _ hne) := hmono _ _ (by omega) hp1n
      rw [hp0b] at h1
      rw [hp1b] at h2
      omega
    · rintro ⟨h0, hkn, hkb⟩
      have hge : Finset.min' _ hne ≤ k.toNat :=
        Finset.min'_le _ _ (Finset.mem_filter.mpr ⟨Finset.mem_range.mpr hkn, hkb⟩)
      have hle : k.toNat ≤ Finset.max' _ hne :=
        Finset.le_max' _ _ (Finset.mem_filter.mpr ⟨Finset.mem_range.mpr hkn, hkb⟩)
      omega

end Helpers

/-! ### Concrete inputs used by witnesses -/

/-- Entities at the origin: interior cube, distance zero pairs. -/
def wX : ℕ → Pt := fun _ => ⟨0, 0, 0, 0⟩

/-- An interaction that satisfies any range bound: identically zero. -/
def wPW : PW := fun _ _ _ _ _ => 0

/-- A nonzero previous-velocity array. -/
def wOV : ℕ → V3 := fun _ => ⟨1, 2, 3⟩

/-- A one-entity solver state. -/
def wS1 : N2nState := ⟨1, wX, fun _ => 0⟩

/-- A derivative array whose non-positional field is identically 1. -/
def c2dX : ℕ → Pt := fun _ => ⟨0, 0, 0, 1⟩

/-! ### The claims -/

/-- C4: after one tiled pairwise evaluation, for every live entity `i` the
derivative `d_dX[i]` is the sum over all live `j` (self-pair included) of
`pw_int(X[i], X[i]-X[j], dist(i,j), i, j)`; and for every `j` with
`dist(i,j) < 1` (self included), `d_nNBs[i]` gains 1 and `d_old_v[j]` is
added to `d_sum_v[i]`. -/
theorem C4_tiles_eval (pw : PW) (n : ℕ) (X : ℕ → Pt) (old_v : ℕ → V3)
    (dX0 : ℕ → Pt) (nNBs0 : ℕ → ℤ) (sum_v0 : ℕ → V3) {i : ℕ} (hi : i < n) :
    compute_tiles_dX pw n X dX0 i =
        (∑ j ∈ Finset.range n, pw (X i) (X i - X j) (normSq (X i - X j)) i j)
      ∧ (∀ j, j ∈ nbhd n X i ↔ j < n ∧ normSq (X i - X j) < 1)
      ∧ i ∈ nbhd n X i
      ∧ compute_tiles_nNBs n X nNBs0 i = nNBs0 i + ((nbhd n X i).card : ℤ)
      ∧ compute_tiles_sum_v n X old_v sum_v0 i = sum_v0 i + ∑ j ∈ nbhd n X i, old_v j := by
  refine ⟨tiles_dX_char pw n X dX0 hi, ?_, self_mem_nbhd n X hi,
    tiles_nNBs_char n X nNBs0 hi, tiles_sum_v_char n X old_v sum_v0 hi⟩
  intro j
  unfold nbhd
  rw [Finset.mem_filter, Finset.mem_range]

theorem C4_witness :
    0 < 1 ∧
      (compute_tiles_dX wPW 1 wX (fun _ => 0) 0 =
          (∑ j ∈ Finset.range 1, wPW (wX 0) (wX 0 - wX j) (normSq (wX 0 - wX j)) 0 j)
        ∧ (∀ j, j ∈ nbhd 1 wX 0 ↔ j < 1 ∧ normSq (wX 0 - wX j) < 1)
        ∧ 0 ∈ nbhd 1 wX 0
        ∧ compute_tiles_nNBs 1 wX (fun _ => 0) 0 = (fun _ => (0 : ℤ)) 0 + ((nbhd 1 wX 0).card : ℤ)
        ∧ compute_tiles_sum_v 1 wX wOV (fun _ => 0) 0 =
            (fun _ => (0 : V3)) 0 + ∑ j ∈ nbhd 1 wX 0, wOV j) :=
  ⟨by decide, C4_tiles_eval wPW 1 wX wOV (fun _ => 0) (fun _ => 0) (fun _ => 0) (by decide)⟩

/-- C2 counterexample: with a point type carrying a non-positional field
`w`, the predictor's drift removal (`euler_step`) subtracts the mean only
from x, y, z; on a two-entity state whose derivative has `w = 1`
everywhere the post-removal sum of the `w` field is 2, not 0, refuting
"the sum over live entities of EVERY integrated field of the derivative
equals zero". -/
theorem C2_counterexample :
    ¬ (∑ i ∈ Finset.range 2,
        ((euler_step 2 1 (fun _ => 0) (meanPt 2 c2dX) c2dX).1 i).w) = 0 := by
  have h : ∀ i, ((euler_step 2 1 (fun _ => 0) (meanPt 2 c2dX) c2dX).1 i).w = 1 := by
    intro i
    show (drift_sub 2 (meanPt 2 c2dX) c2dX i).w = 1
    rw [drift_sub_w]
    rfl
  rw [Finset.sum_range_succ, Finset.sum_range_succ, Finset.sum_range_zero, h 0, h 1]
  norm_num

/-- C2 (amended): in each stage the mean over live entities is computed
over all fields, but it is subtracted only from the positional x, y, z
components; after the subtraction the per-axis positional sums vanish
exactly, while every entity's non-positional field is unchanged. -/
theorem C2_drift_positional_only (n : ℕ) (hn : 1 ≤ n) (dt : ℚ)
    (X0 X : ℕ → Pt) (d0 d1 : ℕ → Pt) (old_v : ℕ → V3) :
    (∑ i ∈ Finset.range n, ((euler_step n dt X0 (meanPt n d0) d0).1 i).x) = 0
    ∧ (∑ i ∈ Finset.range n, ((euler_step n dt X0 (meanPt n d0) d0).1 i).y) = 0
    ∧ (∑ i ∈ Finset.range n, ((euler_step n dt X0 (meanPt n d0) d0).1 i).z) = 0
    ∧ (∀ i, ((euler_step n dt X0 (meanPt n d0) d0).1 i).w = (d0 i).w)
    ∧ (∑ i ∈ Finset.range n, ((heun_step n dt d0 (meanPt n d1) d1 X old_v).1 i).x) = 0
    ∧ (∑ i ∈ Finset.range n, ((heun_step n dt d0 (meanPt n d1) d1 X old_v).1 i).y) = 0
    ∧ (∑ i ∈ Finset.range n, ((heun_step n dt d0 (meanPt n d1) d1 X old_v).1 i).z) = 0
    ∧ (∀ i, ((heun_step n dt d0 (meanPt n d1) d1 X old_v).1 i).w = (d1 i).w) :=
  ⟨drift_sub_sum_x n hn d0, drift_sub_sum_y n hn d0, drift_sub_sum_z n hn d0,
    fun i => drift_sub_w n (meanPt n d0) d0 i,
    drift_sub_sum_x n hn d1, drift_sub_sum_y n hn d1, drift_sub_sum_z n hn d1,
    fun i => drift_sub_w n (meanPt n d1) d1 i⟩

theorem C2_witness :
    1 ≤ 1 ∧
      ((∑ i ∈ Finset.range 1, ((euler_step 1 1 wX (meanPt 1 c2dX) c2dX).1 i).x) = 0
      ∧ (∑ i ∈ Finset.range 1, ((euler_step 1 1 wX (meanPt 1 c2dX) c2dX).1 i).y) = 0
      ∧ (∑ i ∈ Finset.range 1, ((euler_step 1 1 wX (meanPt 1 c2dX) c2dX).1 i).z) = 0
      ∧ (∀ i, ((euler_step 1 1 wX (meanPt 1 c2dX) c2dX).1 i).w = (c2dX i).w)
      ∧ (∑ i ∈ Finset.range 1, ((heun_step 1 1 c2dX (meanPt 1 c2dX) c2dX wX wOV).1 i).x) = 0
      ∧ (∑ i ∈ Finset.range 1, ((heun_step 1 1 c2dX (meanPt 1 c2dX) c2dX wX wOV).1 i).y) = 0
      ∧ (∑ i ∈ Finset.range 1, ((heun_step 1 1 c2dX (meanPt 1 c2dX) c2dX wX wOV).1 i).z) = 0
      ∧ (∀ i, ((heun_step 1 1 c2dX (meanPt 1 c2dX) c2dX wX wOV).1 i).w = (c2dX i).w)) :=
  ⟨by decide, C2_drift_positional_only 1 (by decide) 1 wX wX c2dX c2dX wOV⟩

/-- C3: in both the predictor and the corrector stage of take_step, the
drift-corrected derivative that feeds the position update has exactly zero
positional sums over the live entities (exact arithmetic). -/
theorem C3_drift_free_stages (pw : PW) (gf : GF) (dt : ℚ) (s : N2nState) (hn : 1 ≤ s.n) :
    ∃ c0 c1, predict_corrected pw gf s = some c0
      ∧ correct_corrected pw gf dt s = some c1
      ∧ (∑ i ∈ Finset.range s.n, (c0 i).x) = 0
      ∧ (∑ i ∈ Finset.range s.n, (c0 i).y) = 0
      ∧ (∑ i ∈ Finset.range s.n, (c0 i).z) = 0
      ∧ (∑ i ∈ Finset.range s.n, (c1 i).x) = 0
      ∧ (∑ i ∈ Finset.range s.n, (c1 i).y) = 0
      ∧ (∑ i ∈ Finset.range s.n, (c1 i).z) = 0 := by
  rcases stage_dX_isSome pw gf s.n s.X s.old_v with ⟨d0, h0⟩
  rcases stage_dX_isSome pw gf s.n (euler_step s.n dt s.X (meanPt s.n d0) d0).2 s.old_v
    with ⟨d1, h1⟩
  refine ⟨drift_sub s.n (meanPt s.n d0) d0, drift_sub s.n (meanPt s.n d1) d1, ?_, ?_,
    drift_sub_sum_x s.n hn d0, drift_sub_sum_y s.n hn d0, drift_sub_sum_z s.n hn d0,
    drift_sub_sum_x s.n hn d1, drift_sub_sum_y s.n hn d1, drift_sub_sum_z s.n hn d1⟩
  · unfold predict_corrected
    rw [h0, Option.map_some']
  · unfold correct_corrected predict_X1
    rw [h0, Option.map_some', Option.some_bind, h1, Option.map_some']

theorem C3_witness :
    1 ≤ wS1.n ∧
      (∃ c0 c1, predict_corrected wPW no_gen_forces wS1 = some c0
        ∧ correct_corrected wPW no_gen_forces 1 wS1 = some c1
        ∧ (∑ i ∈ Finset.range wS1.n, (c0 i).x) = 0
        ∧ (∑ i ∈ Finset.range wS1.n, (c0 i).y) = 0
        ∧ (∑ i ∈ Finset.range wS1.n, (c0 i).z) = 0
        ∧ (∑ i ∈ Finset.range wS1.n, (c1 i).x) = 0
        ∧ (∑ i ∈ Finset.range wS1.n, (c1 i).y) = 0
        ∧ (∑ i ∈ Finset.range wS1.n, (c1 i).z) = 0) :=
  ⟨by decide, C3_drift_free_stages wPW no_gen_forces 1 wS1 (by decide)⟩

/-- C7 counterexample: on an input whose entity 0 has neighbour count 0,
`add_rhs` does not add a zero contribution — the unguarded division makes
the call fail (IEEE would produce 0/0 = NaN, fatal by the solver's own
assertions), refuting "treated as zero diffusion, not as a division by
zero and not as an error". -/
theorem C7_counterexample :
    (fun _ => (0 : ℤ)) 0 = 0 ∧
      add_rhs 1 (fun _ => 0) (fun _ => 0) (fun _ => 0) = none :=
  ⟨rfl, rfl⟩

/-- C7 (amended): `add_rhs` does not special-case a zero neighbour count —
the division is unguarded, and a zero divisor is a failure, not a zero
contribution.  Whenever every live neighbour count is nonzero (which every
pairwise evaluation guarantees via the self-pair), the kernel succeeds and
adds exactly `sum_v[i]/nNBs[i]` to the three positional components,
leaving other fields and the entries beyond `n` unchanged. -/
theorem C7_add_rhs_division (n : ℕ) (sum_v : ℕ → V3) (nNBs : ℕ → ℤ) (dX : ℕ → Pt)
    (h : ∀ i, i < n → nNBs i ≠ 0) :
    ∃ d', add_rhs n sum_v nNBs dX = some d'
      ∧ (∀ i, i < n → d' i = ⟨(dX i).x + (sum_v i).x / (nNBs i : ℚ),
          (dX i).y + (sum_v i).y / (nNBs i : ℚ),
          (dX i).z + (sum_v i).z / (nNBs i : ℚ), (dX i).w⟩)
      ∧ (∀ i, n ≤ i → d' i = dX i) := by
  refine ⟨_, add_rhs_eq_some n sum_v nNBs dX h, fun i hi => ?_, fun i hi => ?_⟩
  · show (if i < n then _ else dX i) = _
    rw [if_pos hi]
  · show (if i < n then _ else dX i) = dX i
    rw [if_neg (by omega)]

theorem C7_witness :
    (∀ i, i < 1 → (fun _ => (1 : ℤ)) i ≠ 0) ∧
      (∃ d', add_rhs 1 wOV (fun _ => 1) (fun _ => 0) = some d'
        ∧ (∀ i, i < 1 → d' i = ⟨((fun _ => (0 : Pt)) i).x + (wOV i).x / (((fun _ => (1 : ℤ)) i : ℤ) : ℚ),
            ((fun _ => (0 : Pt)) i).y + (wOV i).y / (((fun _ => (1 : ℤ)) i : ℤ) : ℚ),
            ((fun _ => (0 : Pt)) i).z + (wOV i).z / (((fun _ => (1 : ℤ)) i : ℤ) : ℚ),
            ((fun _ => (0 : Pt)) i).w⟩)
        ∧ (∀ i, 1 ≤ i → d' i = (fun _ => (0 : Pt)) i)) :=
  ⟨by decide, C7_add_rhs_division 1 wOV (fun _ => 1) (fun _ => 0) (by decide)⟩

/-- C8: both mirror transfers move the full `n_max`-sized buffer plus the
live count, succeed exactly when the transported count is at most the
capacity (in particular at exactly `n_max`), and fail whenever it exceeds
the capacity. -/
theorem C8_copy_bounds (n_max : ℕ) (s : Solution) :
    ((copy_to_device n_max s).isSome = true ↔ s.h_n ≤ (n_max : ℤ))
    ∧ ((copy_to_host n_max s).isSome = true ↔ s.d_n ≤ (n_max : ℤ))
    ∧ (∀ s', copy_to_device n_max s = some s' →
        s'.d_n = s.h_n ∧ (∀ i, i < n_max → s'.d_X i = s.h_X i)
          ∧ s'.h_X = s.h_X ∧ s'.h_n = s.h_n)
    ∧ (∀ s', copy_to_host n_max s = some s' →
        s'.h_n = s.d_n ∧ (∀ i, i < n_max → s'.h_X i = s.d_X i)
          ∧ s'.d_X = s.d_X ∧ s'.d_n = s.d_n)
    ∧ (s.h_n = (n_max : ℤ) → (copy_to_device n_max s).isSome = true)
    ∧ ((n_max : ℤ) < s.h_n → copy_to_device n_max s = none)
    ∧ ((n_max : ℤ) < s.d_n → copy_to_host n_max s = none) := by
  refine ⟨?_, ?_, ?_, ?_, ?_, ?_, ?_⟩
  · unfold copy_to_device
    by_cases h : s.h_n ≤ (n_max : ℤ) <;> simp [h]
  · unfold copy_to_host
    by_cases h : s.d_n ≤ (n_max : ℤ) <;> simp [h]
  · intro s' hs'
    unfold copy_to_device at hs'
    by_cases h : s.h_n ≤ (n_max : ℤ)
    · rw [if_pos h] at hs'
      injection hs' with h'
      rw [← h']
      exact ⟨rfl, fun i hi => by simp [hi], rfl, rfl⟩
    · rw [if_neg h] at hs'
      exact absurd hs' (by simp)
  · intro s' hs'
    unfold copy_to_host at hs'
    by_cases h : s.d_n ≤ (n_max : ℤ)
    · rw [if_pos h] at hs'
      injection hs' with h'
      rw [← h']
      exact ⟨rfl, fun i hi => by simp [hi], rfl, rfl⟩
    · rw [if_neg h] at hs'
      exact absurd hs' (by simp)
  · intro h
    unfold copy_to_device
    rw [if_pos (le_of_eq h)]
    rfl
  · intro h
    unfold copy_to_device
    rw [if_neg (by omega)]
  · intro h
    unfold copy_to_host
    rw [if_neg (by omega)]

/-- C1: for interior states and an interaction that vanishes at (squared)
distance at least 1, the tiled evaluator and the lattice evaluator
(`build_lattice` then `compute_lattice_pwints`) agree on every live
entity's derivative, neighbour count and neighbour-velocity sum, starting
from the same zeroed accumulators. -/
theorem C1_evaluator_equivalence (pw : PW) (n : ℕ) (X : ℕ → Pt) (old_v : ℕ → V3)
    (hint : ∀ i, i < n → interior 1 (X i))
    (hpw : ∀ Xi r d2 i j, (1 : ℚ) ≤ d2 → pw Xi r d2 i j = 0) :
    ∀ e, e < n →
      compute_lattice_dX pw n X (build_lattice 1 n X) (fun _ => 0) e =
          compute_tiles_dX pw n X (fun _ => 0) e
      ∧ compute_lattice_nNBs n X (build_lattice 1 n X) (fun _ => 0) e =
          compute_tiles_nNBs n X (fun _ => 0) e
      ∧ compute_lattice_sum_v n X old_v (build_lattice 1 n X) (fun _ => 0) e =
          compute_tiles_sum_v n X old_v (fun _ => 0) e := by
  intro e he
  have hv : ∀ i, i < n → 0 ≤ cube_id 1 (X i) := fun i hi => (interior_valid (hint i hi)).1
  rcases bl_cell_surj 1 n X he with ⟨p, hp, hpe⟩
  have hcell : (build_lattice 1 n X).cellOf p < n := (bl_cube_cell 1 n X hp).1
  refine ⟨?_, ?_, ?_⟩
  · rw [← hpe, compute_lattice_dX_pos 1 n X pw _ hp, lat_F_char 1 n X pw hp hv,
      latNbhd_eq_nbhd, tiles_dX_char pw n X _ hcell]
    refine Finset.sum_subset (Finset.filter_subset _ _) (fun f hf hfn => ?_)
    refine hpw _ _ _ _ _ (le_of_not_lt (fun hlt => hfn ?_))
    exact Finset.mem_filter.mpr ⟨hf, hlt⟩
  · rw [← hpe, compute_lattice_nNBs_pos 1 n X _ hp, lat_cnt_char 1 n X hp hv,
      latNbhd_eq_nbhd, tiles_nNBs_char n X _ hcell]
  · rw [← hpe, compute_lattice_sum_v_pos 1 n X old_v _ hp, lat_sv_char 1 n X old_v hp hv,
      latNbhd_eq_nbhd, tiles_sum_v_char n X old_v _ hcell]

theorem C1_witness :
    (∀ i, i < 1 → interior 1 (wX i))
    ∧ (∀ Xi r d2 i j, (1 : ℚ) ≤ d2 → wPW Xi r d2 i j = 0)
    ∧ (compute_lattice_dX wPW 1 wX (build_lattice 1 1 wX) (fun _ => 0) 0 =
          compute_tiles_dX wPW 1 wX (fun _ => 0) 0
        ∧ compute_lattice_nNBs 1 wX (build_lattice 1 1 wX) (fun _ => 0) 0 =
          compute_tiles_nNBs 1 wX (fun _ => 0) 0
        ∧ compute_lattice_sum_v 1 wX wOV (build_lattice 1 1 wX) (fun _ => 0) 0 =
          compute_tiles_sum_v 1 wX wOV (fun _ => 0) 0) :=
  ⟨by intro i _; unfold wX interior LATTICE_SIZE; norm_num, fun _ _ _ _ _ _ => rfl,
    C1_evaluator_equivalence wPW 1 wX wOV
      (by intro i _; unfold wX interior LATTICE_SIZE; norm_num)
      (fun _ _ _ _ _ _ => rfl) 0 (by decide)⟩

/-- C5: the corrector stage updates each live entity's stored state in
place from its pre-step value by `dt * 0.5 * (dX0' + dX1')` with the
drift-corrected stage derivatives, and stores the positional part of
`0.5 * (dX0' + dX1')` as the entity's previous velocity; entries beyond
the live count are untouched. -/
theorem C5_heun_update (pw : PW) (gf : GF) (dt : ℚ) (s : N2nState) :
    ∃ c0 c1 s', predict_corrected pw gf s = some c0
      ∧ correct_corrected pw gf dt s = some c1
      ∧ take_step pw gf dt s = some s'
      ∧ s'.n = s.n
      ∧ (∀ i, i < s.n →
          s'.X i = s.X i + ((c0 i + c1 i).scale (1 / 2)).scale dt
          ∧ s'.old_v i = ⟨((c0 i + c1 i).scale (1 / 2)).x,
              ((c0 i + c1 i).scale (1 / 2)).y, ((c0 i + c1 i).scale (1 / 2)).z⟩)
      ∧ (∀ i, s.n ≤ i → s'.X i = s.X i ∧ s'.old_v i = s.old_v i) := by
  rcases stage_dX_isSome pw gf s.n s.X s.old_v with ⟨d0, h0⟩
  rcases stage_dX_isSome pw gf s.n (euler_step s.n dt s.X (meanPt s.n d0) d0).2 s.old_v
    with ⟨d1, h1⟩
  refine ⟨drift_sub s.n (meanPt s.n d0) d0, drift_sub s.n (meanPt s.n d1) d1,
    ⟨s.n,
      (heun_step s.n dt (euler_step s.n dt s.X (meanPt s.n d0) d0).1 (meanPt s.n d1) d1
        s.X s.old_v).2.1,
      (heun_step s.n dt (euler_step s.n dt s.X (meanPt s.n d0) d0).1 (meanPt s.n d1) d1
        s.X s.old_v).2.2⟩, ?_, ?_, ?_, rfl, ?_, ?_⟩
  · unfold predict_corrected
    rw [h0, Option.map_some']
  · unfold correct_corrected predict_X1
    rw [h0, Option.map_some', Option.some_bind, h1, Option.map_some']
  · unfold take_step
    rw [h0, Option.some_bind]
    show (stage_dX pw gf s.n (euler_step s.n dt s.X (meanPt s.n d0) d0).2 s.old_v).bind _ = _
    rw [h1, Option.some_bind]
  · intro i hi
    constructor
    · show (heun_step s.n dt (euler_step s.n dt s.X (meanPt s.n d0) d0).1
        (meanPt s.n d1) d1 s.X s.old_v).2.1 i = _
      have hr : (heun_step s.n dt (euler_step s.n dt s.X (meanPt s.n d0) d0).1
          (meanPt s.n d1) d1 s.X s.old_v).2.1 i =
          if i < s.n then
            s.X i + (((euler_step s.n dt s.X (meanPt s.n d0) d0).1 i +
              drift_sub s.n (meanPt s.n d1) d1 i).scale (1 / 2)).scale dt
          else s.X i := rfl
      rw [hr, if_pos hi]
      rfl
    · show (heun_step s.n dt (euler_step s.n dt s.X (meanPt s.n d0) d0).1
        (meanPt s.n d1) d1 s.X s.old_v).2.2 i = _
      have hr : (heun_step s.n dt (euler_step s.n dt s.X (meanPt s.n d0) d0).1
          (meanPt s.n d1) d1 s.X s.old_v).2.2 i =
          if i < s.n then
            ⟨(((euler_step s.n dt s.X (meanPt s.n d0) d0).1 i +
                drift_sub s.n (meanPt s.n d1) d1 i).scale (1 / 2)).x,
             (((euler_step s.n dt s.X (meanPt s.n d0) d0).1 i +
                drift_sub s.n (meanPt s.n d1) d1 i).scale (1 / 2)).y,
             (((euler_step s.n dt s.X (meanPt s.n d0) d0).1 i +
                drift_sub s.n (meanPt s.n d1) d1 i).scale (1 / 2)).z⟩
          else s.old_v i := rfl
      rw [hr, if_pos hi]
      rfl
  · intro i hi
    constructor
    · show (heun_step s.n dt (euler_step s.n dt s.X (meanPt s.n d0) d0).1
        (meanPt s.n d1) d1 s.X s.old_v).2.1 i = _
      have hr : (heun_step s.n dt (euler_step s.n dt s.X (meanPt s.n d0) d0).1
          (meanPt s.n d1) d1 s.X s.old_v).2.1 i =
          if i < s.n then
            s.X i + (((euler_step s.n dt s.X (meanPt s.n d0) d0).1 i +
              drift_sub s.n (meanPt s.n d1) d1 i).scale (1 / 2)).scale dt
          else s.X i := rfl
      rw [hr, if_neg (by omega)]
    · show (heun_step s.n dt (euler_step s.n dt s.X (meanPt s.n d0) d0).1
        (meanPt s.n d1) d1 s.X s.old_v).2.2 i = _
      have hr : (heun_step s.n dt (euler_step s.n dt s.X (meanPt s.n d0) d0).1
          (meanPt s.n d1) d1 s.X s.old_v).2.2 i =
          if i < s.n then
            ⟨(((euler_step s.n dt s.X (meanPt s.n d0) d0).1 i +
                drift_sub s.n (meanPt s.n d1) d1 i).scale (1 / 2)).x,
             (((euler_step s.n dt s.X (meanPt s.n d0) d0).1 i +
                drift_sub s.n (meanPt s.n d1) d1 i).scale (1 / 2)).y,
             (((euler_step s.n dt s.X (meanPt s.n d0) d0).1 i +
                drift_sub s.n (meanPt s.n d1) d1 i).scale (1 / 2)).z⟩
          else s.old_v i := rfl
      rw [hr, if_neg (by omega)]

/-- C6: after a lattice build with all cube ids valid, every sorted
position lies in exactly one bucket range (its own cube's), empty buckets
keep the `-1`/`-2` sentinel so their range iterates zero times, and the
sorted order holds each live entity exactly once. -/
theorem C6_bucket_partition (cs : ℚ) (n : ℕ) (X : ℕ → Pt)
    (hv : ∀ i, i < n → 0 ≤ cube_id cs (X i) ∧ cube_id cs (X i) < N_CUBES) :
    (∀ p, p < n →
        (build_lattice cs n X).cstart ((build_lattice cs n X).cubeOf p) ≤ (p : ℤ)
        ∧ (p : ℤ) ≤ (build_lattice cs n X).cend ((build_lattice cs n X).cubeOf p))
    ∧ (∀ p, p < n → ∀ b : ℤ, b ≠ (build_lattice cs n X).cubeOf p →
        ¬ ((build_lattice cs n X).cstart b ≤ (p : ℤ)
            ∧ (p : ℤ) ≤ (build_lattice cs n X).cend b))
    ∧ (∀ b : ℤ, (∀ p, p < n → (build_lattice cs n X).cubeOf p ≠ b) →
        (build_lattice cs n X).cstart b = -1 ∧ (build_lattice cs n X).cend b = -2)
    ∧ (∀ e, e < n → ∃ p, (p < n ∧ (build_lattice cs n X).cellOf p = e)
        ∧ ∀ q, q < n → (build_lattice cs n X).cellOf q = e → q = p) := by
  have hv' : ∀ i, i < n → 0 ≤ cube_id cs (X i) := fun i hi => (hv i hi).1
  have htn : ∀ p : ℕ, ((p : ℤ)).toNat = p := fun p => by omega
  refine ⟨?_, ?_, ?_, ?_⟩
  · intro p hp
    refine (bl_interval_mem cs n X ((build_lattice cs n X).cubeOf p) hv' (p : ℤ)).mpr ?_
    refine ⟨by omega, ?_, ?_⟩
    · rw [htn p]
      exact hp
    · rw [htn p]
  · intro p hp b hb hmem
    have h := (bl_interval_mem cs n X b hv' (p : ℤ)).mp hmem
    apply hb
    rw [← h.2.2, htn p]
  · intro b hb
    exact ⟨by rw [bl_cstart]; exact (cse_none _ n b n hb).1,
      by rw [bl_cend]; exact (cse_none _ n b n hb).2⟩
  · intro e he
    rcases bl_cell_surj cs n X he with ⟨p, hp, hpe⟩
    exact ⟨p, ⟨hp, hpe⟩, fun q hq hqe => bl_cell_inj cs n X hq hp (by rw [hqe, hpe])⟩

theorem C6_witness :
    (∀ i, i < 2 → 0 ≤ cube_id 1 (wX i) ∧ cube_id 1 (wX i) < N_CUBES)
    ∧ ((∀ p, p < 2 →
          (build_lattice 1 2 wX).cstart ((build_lattice 1 2 wX).cubeOf p) ≤ (p : ℤ)
          ∧ (p : ℤ) ≤ (build_lattice 1 2 wX).cend ((build_lattice 1 2 wX).cubeOf p))
      ∧ (∀ p, p < 2 → ∀ b : ℤ, b ≠ (build_lattice 1 2 wX).cubeOf p →
          ¬ ((build_lattice 1 2 wX).cstart b ≤ (p : ℤ)
              ∧ (p : ℤ) ≤ (build_lattice 1 2 wX).cend b))
      ∧ (∀ b : ℤ, (∀ p, p < 2 → (build_lattice 1 2 wX).cubeOf p ≠ b) →
          (build_lattice 1 2 wX).cstart b = -1 ∧ (build_lattice 1 2 wX).cend b = -2)
      ∧ (∀ e, e < 2 → ∃ p, (p < 2 ∧ (build_lattice 1 2 wX).cellOf p = e)
          ∧ ∀ q, q < 2 → (build_lattice 1 2 wX).cellOf q = e → q = p)) :=
  ⟨by intro i _; unfold wX cube_id N_CUBES LATTICE_SIZE; norm_num,
    C6_bucket_partition 1 2 wX
      (by intro i _; unfold wX cube_id N_CUBES LATTICE_SIZE; norm_num)⟩

/-- C9: within the unit radius the neighbour relation both evaluators
accumulate is symmetric: each of the two entities is in the other's
accumulated neighbour set, for the tiled counts/velocity sums and for the
lattice ones alike. -/
theorem C9_neighbor_symmetry (n : ℕ) (X : ℕ → Pt)
    (hv : ∀ k, k < n → 0 ≤ cube_id 1 (X k))
    {i j : ℕ} (hi : i < n) (hj : j < n) (_hij : i ≠ j)
    (hd : normSq (X i - X j) < 1) :
    (j ∈ nbhd n X i ∧ i ∈ nbhd n X j)
    ∧ (∀ nNBs0 : ℕ → ℤ,
        compute_tiles_nNBs n X nNBs0 i = nNBs0 i + ((nbhd n X i).card : ℤ)
        ∧ compute_tiles_nNBs n X nNBs0 j = nNBs0 j + ((nbhd n X j).card : ℤ))
    ∧ (∀ (old_v : ℕ → V3) (sum_v0 : ℕ → V3),
        compute_tiles_sum_v n X old_v sum_v0 i = sum_v0 i + ∑ f ∈ nbhd n X i, old_v f
        ∧ compute_tiles_sum_v n X old_v sum_v0 j = sum_v0 j + ∑ f ∈ nbhd n X j, old_v f)
    ∧ (j ∈ latNbhd 1 n X i ∧ i ∈ latNbhd 1 n X j)
    ∧ (∀ e, e < n → compute_lattice_nNBs n X (build_lattice 1 n X) (fun _ => 0) e =
        ((nbhd n X e).card : ℤ))
    ∧ (∀ (old_v : ℕ → V3), ∀ e, e < n →
        compute_lattice_sum_v n X old_v (build_lattice 1 n X) (fun _ => 0) e =
          ∑ f ∈ nbhd n X e, old_v f) := by
  have hd' : normSq (X j - X i) < 1 := by
    rw [normSq_comm]
    exact hd
  have hlat : ∀ e, e < n → compute_lattice_nNBs n X (build_lattice 1 n X) (fun _ => 0) e =
      ((nbhd n X e).card : ℤ) := by
    intro e he
    rcases bl_cell_surj 1 n X he with ⟨p, hp, hpe⟩
    rw [← hpe, compute_lattice_nNBs_pos 1 n X _ hp, lat_cnt_char 1 n X hp hv,
      latNbhd_eq_nbhd]
    show 0 + _ = _
    omega
  have hlatv : ∀ (old_v : ℕ → V3), ∀ e, e < n →
      compute_lattice_sum_v n X old_v (build_lattice 1 n X) (fun _ => 0) e =
        ∑ f ∈ nbhd n X e, old_v f := by
    intro old_v e he
    rcases bl_cell_surj 1 n X he with ⟨p, hp, hpe⟩
    rw [← hpe, compute_lattice_sum_v_pos 1 n X old_v _ hp, lat_sv_char 1 n X old_v hp hv,
      latNbhd_eq_nbhd]
    exact zero_add _
  refine ⟨⟨Finset.mem_filter.mpr ⟨Finset.mem_range.mpr hj, hd⟩,
      Finset.mem_filter.mpr ⟨Finset.mem_range.mpr hi, hd'⟩⟩,
    fun nNBs0 => ⟨tiles_nNBs_char n X nNBs0 hi, tiles_nNBs_char n X nNBs0 hj⟩,
    fun old_v sum_v0 => ⟨tiles_sum_v_char n X old_v sum_v0 hi,
      tiles_sum_v_char n X old_v sum_v0 hj⟩,
    ⟨?_, ?_⟩, hlat, hlatv⟩
  · rw [latNbhd_eq_nbhd]
    exact Finset.mem_filter.mpr ⟨Finset.mem_range.mpr hj, hd⟩
  · rw [latNbhd_eq_nbhd]
    exact Finset.mem_filter.mpr ⟨Finset.mem_range.mpr hi, hd'⟩

theorem C9_witness :
    (∀ k, k < 2 → 0 ≤ cube_id 1 (wX k)) ∧ 0 < 2 ∧ 1 < 2 ∧ (0 : ℕ) ≠ 1
    ∧ normSq (wX 0 - wX 1) < 1
    ∧ ((1 ∈ nbhd 2 wX 0 ∧ 0 ∈ nbhd 2 wX 1)
      ∧ (∀ nNBs0 : ℕ → ℤ,
          compute_tiles_nNBs 2 wX nNBs0 0 = nNBs0 0 + ((nbhd 2 wX 0).card : ℤ)
          ∧ compute_tiles_nNBs 2 wX nNBs0 1 = nNBs0 1 + ((nbhd 2 wX 1).card : ℤ))
      ∧ (∀ (old_v : ℕ → V3) (sum_v0 : ℕ → V3),
          compute_tiles_sum_v 2 wX old_v sum_v0 0 = sum_v0 0 + ∑ f ∈ nbhd 2 wX 0, old_v f
          ∧ compute_tiles_sum_v 2 wX old_v sum_v0 1 = sum_v0 1 + ∑ f ∈ nbhd 2 wX 1, old_v f)
      ∧ (1 ∈ latNbhd 1 2 wX 0 ∧ 0 ∈ latNbhd 1 2 wX 1)
      ∧ (∀ e, e < 2 → compute_lattice_nNBs 2 wX (build_lattice 1 2 wX) (fun _ => 0) e =
          ((nbhd 2 wX e).card : ℤ))
      ∧ (∀ (old_v : ℕ → V3), ∀ e, e < 2 →
          compute_lattice_sum_v 2 wX old_v (build_lattice 1 2 wX) (fun _ => 0) e =
            ∑ f ∈ nbhd 2 wX e, old_v f)) :=
  ⟨by intro k _; unfold wX cube_id LATTICE_SIZE; norm_num, by decide, by decide, by decide,
    by unfold wX normSq; norm_num,
    C9_neighbor_symmetry 2 wX (by intro k _; unfold wX cube_id LATTICE_SIZE; norm_num)
      (by decide) (by decide) (by decide) (by unfold wX normSq; norm_num)⟩

/-- C10: every live entity counts itself (distance 0 < 1) in both
evaluators, so the `add_rhs` divisor is at least 1 and each stage's
`add_rhs` succeeds; an entity with no other entity within distance 1 ends
with count exactly 1 and velocity sum equal to its own previous velocity,
so the diffusion step adds exactly that previous velocity. -/
theorem C10_self_neighbor (n : ℕ) (X : ℕ → Pt) (old_v : ℕ → V3)
    (hv : ∀ k, k < n → 0 ≤ cube_id 1 (X k)) :
    (∀ i, i < n → i ∈ nbhd n X i)
    ∧ (∀ i, i < n → 1 ≤ compute_tiles_nNBs n X (fun _ => 0) i)
    ∧ (∀ i, i < n → 1 ≤ compute_lattice_nNBs n X (build_lattice 1 n X) (fun _ => 0) i)
    ∧ (∀ pw gf, ∃ d, stage_dX pw gf n X old_v = some d)
    ∧ (∀ i, i < n → (∀ j, j < n → j ≠ i → ¬ normSq (X i - X j) < 1) →
        compute_tiles_nNBs n X (fun _ => 0) i = 1
        ∧ compute_tiles_sum_v n X old_v (fun _ => 0) i = old_v i
        ∧ compute_lattice_nNBs n X (build_lattice 1 n X) (fun _ => 0) i = 1
        ∧ compute_lattice_sum_v n X old_v (build_lattice 1 n X) (fun _ => 0) i = old_v i
        ∧ (∀ dXa d', add_rhs n (compute_tiles_sum_v n X old_v (fun _ => 0))
            (compute_tiles_nNBs n X (fun _ => 0)) dXa = some d' →
            d' i = ⟨(dXa i).x + (old_v i).x, (dXa i).y + (old_v i).y,
              (dXa i).z + (old_v i).z, (dXa i).w⟩)) := by
  have hlat : ∀ i, i < n → compute_lattice_nNBs n X (build_lattice 1 n X) (fun _ => 0) i =
      ((nbhd n X i).card : ℤ) := by
    intro e he
    rcases bl_cell_surj 1 n X he with ⟨p, hp, hpe⟩
    rw [← hpe, compute_lattice_nNBs_pos 1 n X _ hp, lat_cnt_char 1 n X hp hv,
      latNbhd_eq_nbhd]
    show 0 + _ = _
    omega
  have hsingle : ∀ i, i < n → (∀ j, j < n → j ≠ i → ¬ normSq (X i - X j) < 1) →
      nbhd n X i = {i} := by
    intro i hi hiso
    ext f
    rw [Finset.mem_singleton]
    constructor
    · intro hf
      rcases Finset.mem_filter.mp hf with ⟨hfr, hfd⟩
      by_contra hne
      exact hiso f (Finset.mem_range.mp hfr) hne hfd
    · rintro rfl
      exact self_mem_nbhd n X hi
  refine ⟨fun i hi => self_mem_nbhd n X hi, fun i hi => tiles_nNBs_ge_one n X hi,
    ?_, fun pw gf => stage_dX_isSome pw gf n X old_v, ?_⟩
  · intro i hi
    rw [hlat i hi]
    have h1 : 0 < (nbhd n X i).card := Finset.card_pos.mpr ⟨i, self_mem_nbhd n X hi⟩
    omega
  · intro i hi hiso
    have hcnt : compute_tiles_nNBs n X (fun _ => 0) i = 1 := by
      rw [tiles_nNBs_char n X _ hi, hsingle i hi hiso]
      show 0 + _ = _
      rw [Finset.card_singleton]
      norm_num
    have hsv : compute_tiles_sum_v n X old_v (fun _ => 0) i = old_v i := by
      rw [tiles_sum_v_char n X old_v _ hi, hsingle i hi hiso, Finset.sum_singleton]
      exact zero_add _
    refine ⟨hcnt, hsv, ?_, ?_, ?_⟩
    · rw [hlat i hi, hsingle i hi hiso, Finset.card_singleton]
      rfl
    · rcases bl_cell_surj 1 n X hi with ⟨p, hp, hpe⟩
      rw [← hpe, compute_lattice_sum_v_pos 1 n X old_v _ hp, lat_sv_char 1 n X old_v hp hv,
        latNbhd_eq_nbhd, hpe, hsingle i hi hiso, Finset.sum_singleton]
      exact zero_add _
    · intro dXa d' hd'
      rw [add_rhs_eq_some n _ _ dXa (fun k hk => by
        have := tiles_nNBs_ge_one n X hk
        omega)] at hd'
      injection hd' with h'
      rw [← h']
      show (if i < n then _ else _) = _
      rw [if_pos hi, hcnt, hsv]
      norm_num

theorem C10_witness :
    (∀ k, k < 1 → 0 ≤ cube_id 1 (wX k))
    ∧ ((∀ i, i < 1 → i ∈ nbhd 1 wX i)
      ∧ (∀ i, i < 1 → 1 ≤ compute_tiles_nNBs 1 wX (fun _ => 0) i)
      ∧ (∀ i, i < 1 → 1 ≤ compute_lattice_nNBs 1 wX (build_lattice 1 1 wX) (fun _ => 0) i)
      ∧ (∀ pw gf, ∃ d, stage_dX pw gf 1 wX wOV = some d)
      ∧ (∀ i, i < 1 → (∀ j, j < 1 → j ≠ i → ¬ normSq (wX i - wX j) < 1) →
          compute_tiles_nNBs 1 wX (fun _ => 0) i = 1
          ∧ compute_tiles_sum_v 1 wX wOV (fun _ => 0) i = wOV i
          ∧ compute_lattice_nNBs 1 wX (build_lattice 1 1 wX) (fun _ => 0) i = 1
          ∧ compute_lattice_sum_v 1 wX wOV (build_lattice 1 1 wX) (fun _ => 0) i = wOV i
          ∧ (∀ dXa d', add_rhs 1 (compute_tiles_sum_v 1 wX wOV (fun _ => 0))
              (compute_tiles_nNBs 1 wX (fun _ => 0)) dXa = some d' →
              d' i = ⟨(dXa i).x + (wOV i).x, (dXa i).y + (wOV i).y,
                (dXa i).z + (wOV i).z, (dXa i).w⟩))) :=
  ⟨by intro k _; unfold wX cube_id LATTICE_SIZE; norm_num,
    C10_self_neighbor 1 wX wOV (by intro k _; unfold wX cube_id LATTICE_SIZE; norm_num)⟩

end Yalla
